import Mathlib

/-!
Verification of the quizzer core (grading engine, question generator,
grounding index, session engine) against its natural-language specification.

Strings are modelled as lists of characters (`Str`); Python text is mapped
to `List Char` operations (`strip`, `lower`, `split`, substring search).
Python floats are IEEE-754 doubles; where the source's float rounding is
observable (the multi-choice score ratio of `_grade_mcq_multi` and the
`int(max_points * 0.7)` of `_generate_rubric`) the arithmetic is embedded
exactly: each operation computes the exact rational result and rounds it
to the nearest 53-bit significand with ties to even (`roundDouble`; the
values arising here are far from the overflow and subnormal ranges, so
exponent clamping is not modelled).  Python `round` is round-half-to-even
on the exact value of its argument, `int(...)` truncates.  Fallible code
(dictionary indexing that can raise `IndexError`) is embedded with
`Except`.
-/

/-- Python strings, modelled as lists of characters. -/
abbrev Str := List Char

/-- `str.lstrip()`: drop leading whitespace. -/
def stripL (s : Str) : Str := s.dropWhile Char.isWhitespace

/-- `str.strip()`: drop leading and trailing whitespace. -/
def stripWS (s : Str) : Str := ((stripL s.reverse).reverse).dropWhile Char.isWhitespace

/-- `str.lower()`, character-wise. -/
def lowerL (s : Str) : Str := s.map Char.toLower

/-- `str.upper()`, character-wise. -/
def upperL (s : Str) : Str := s.map Char.toUpper

/-- Worker for `str.split()`: accumulate the current word (reversed) and
split on every whitespace run, producing no empty words. -/
def splitWSAux (cur : Str) : Str → List Str
  | [] => if cur = [] then [] else [cur.reverse]
  | c :: cs =>
    if c.isWhitespace then
      if cur = [] then splitWSAux [] cs else cur.reverse :: splitWSAux [] cs
    else splitWSAux (c :: cur) cs

/-- `str.split()` with no separator argument: split on whitespace runs. -/
def wordsOf (s : Str) : List Str := splitWSAux [] s

/-- Does `needle` occur at the head of `hay`? -/
def leadMatch : Str → Str → Bool
  | _, [] => true
  | [], _ :: _ => false
  | h :: hs, n :: ns => h = n && leadMatch hs ns

/-- `str.find(needle)` as an option: index of the first occurrence. -/
def subIdx : Str → Str → Option Nat
  | hay, needle =>
    if leadMatch hay needle then some 0
    else
      match hay with
      | [] => none
      | _ :: t => (subIdx t needle).map (· + 1)

/-- Python `needle in hay` substring test. -/
def hasSub (hay needle : Str) : Bool := (subIdx hay needle).isSome

/-- Python `round` on an exact rational: round half to even. -/
def pyRound (q : ℚ) : ℤ :=
  let f : ℤ := ⌊q⌋
  let r : ℚ := q - f
  if r < 1/2 then f
  else if (1:ℚ)/2 < r then f + 1
  else if f % 2 = 0 then f else f + 1

/-- Python `int(...)` on an exact rational: truncate toward zero. -/
def pyTrunc (q : ℚ) : ℤ := q.num / (q.den : ℤ)

/-- `⌊log₂ x⌋` of a positive rational, computed by first scaling `x` into
`[1, ∞)` with a power of two large enough to cancel the denominator. -/
def ilog2q (x : ℚ) : ℤ :=
  (Nat.log2 ((⌊x * ((2 ^ (Nat.log2 x.den + 1) : ℕ) : ℚ)⌋).toNat) : ℤ) -
    ((Nat.log2 x.den + 1 : ℕ) : ℤ)

/-- Round a rational to the nearest IEEE-754 double: round the 53-bit
scaled significand half to even and scale back (no overflow or subnormal
handling; the magnitudes arising in this development never reach those
ranges). -/
def roundDouble (x : ℚ) : ℚ :=
  if x = 0 then 0
  else if 0 < x then
    (pyRound (x * (2:ℚ) ^ (52 - ilog2q x)) : ℚ) * (2:ℚ) ^ (ilog2q x - 52)
  else
    -((pyRound (-x * (2:ℚ) ^ (52 - ilog2q (-x))) : ℚ) * (2:ℚ) ^ (ilog2q (-x) - 52))

/-- IEEE double division of exactly represented operands (Python `/`
on ints or doubles yields the correctly rounded quotient). -/
def fdiv (a b : ℚ) : ℚ := roundDouble (a / b)

/-- IEEE double subtraction of exactly represented operands. -/
def fsub (a b : ℚ) : ℚ := roundDouble (a - b)

/-- IEEE double multiplication of exactly represented operands. -/
def fmul (a b : ℚ) : ℚ := roundDouble (a * b)

/-- The double written `0.4` in the source: the nearest double to `2/5`
(slightly above it). -/
def d04 : ℚ := roundDouble (2/5)

/-- The double written `0.9` in the source: the nearest double to `9/10`
(slightly above it). -/
def d09 : ℚ := roundDouble (9/10)

/-- The double written `0.7` in the source: the nearest double to `7/10`
(slightly below it). -/
def c07 : ℚ := roundDouble (7/10)

/-- One rubric criterion with its point weight
(`{"criterion": ..., "points": ...}`). -/
structure Criterion where
  criterion : Str
  points : ℕ
deriving DecidableEq

/-- A generated question together with its answer key, as consumed by the
grading engine (`question["type"]`, `question["options"]`,
`question["answer_key"]`). -/
structure Question where
  id : Str
  qtype : Str
  prompt : Str
  options : List Str
  correct : List Str
  maxPts : ℕ
  canonical : Str
  breakdown : List Criterion
deriving DecidableEq

/-- One entry of the grading's `checks` array (evidence text omitted). -/
structure Check where
  criterion : Str
  met : Bool
deriving DecidableEq

/-- The grading result (student-facing explanation text and echoed
citations omitted; all fields the specification quantifies over kept). -/
structure Grading where
  points_awarded : ℤ
  points_possible : ℤ
  decision : Str
  checks : List Check
  false_positive_guard : Bool
  false_negative_guard : Bool
deriving DecidableEq

/-- The structured verdict returned by the generation oracle for
open-ended grading (justification/expected-summary text omitted). -/
structure OracleResp where
  is_correct : Bool
  score : ℚ
  verdict : Str
deriving DecidableEq

/-- Runtime errors the grading code can raise. -/
inductive GErr where
  | indexError
deriving DecidableEq

deriving instance DecidableEq for Except

/-- `c.strip().upper()[0] if c else ""` from `_grade_mcq_single`:
empty strings map to the empty string, and a nonempty all-whitespace
string raises `IndexError`. -/
def normKeySingle (c : Str) : Except GErr Str :=
  if c = [] then .ok []
  else
    match upperL (stripWS c) with
    | [] => .error .indexError
    | d :: _ => .ok [d]

/-- Answer normalization of `_grade_mcq_single`: strip and uppercase,
then keep only the first character when longer than one. -/
def normAnswerSingle (ua : Str) : Str :=
  let u := upperL (stripWS ua)
  if 1 < u.length then u.take 1 else u

/-- `_grade_mcq_single`: full points iff the normalized answer is a member
of the normalized correct-option list; the explanation string indexes
`correct_choices[0]`, so an empty correct list raises `IndexError`. -/
def gradeMcqSingle (q : Question) (ua : Str) : Except GErr Grading :=
  match q.correct.mapM normKeySingle with
  | .error e => .error e
  | .ok correct_choices =>
  let user_choice := normAnswerSingle ua
  let is_correct := correct_choices.contains user_choice
  match correct_choices with
  | [] => .error .indexError
  | _ :: _ =>
    .ok
      { points_awarded := if is_correct then (q.maxPts : ℤ) else 0
        points_possible := (q.maxPts : ℤ)
        decision := if is_correct then "correct".data else "incorrect".data
        checks := [⟨"Selected correct option".data, is_correct⟩]
        false_positive_guard := true
        false_negative_guard := true }

/-- `c.strip().upper()[0]` for a nonempty option string of
`_grade_mcq_multi`; `none` for the skipped empty string; raises when the
string is nonempty but all whitespace. -/
def normKeyMulti (c : Str) : Except GErr (Option Char) :=
  if c = [] then .ok none
  else
    match upperL (stripWS c) with
    | [] => .error .indexError
    | d :: _ => .ok (some d)

/-- The correct-option character a key entry contributes, ignoring the
possibility of `IndexError` (total description used in theorem statements;
it agrees with `normKeyMulti` on well-formed keys). -/
def keyChar (c : Str) : Option Char :=
  match upperL (stripWS c) with
  | [] => none
  | d :: _ => some d

/-- The normalized correct-option set `correct_choices` of
`_grade_mcq_multi`, as a total function. -/
def correctSet (correct : List Str) : Finset Char :=
  (correct.filterMap keyChar).toFinset

/-- The set of declared option letters `all_options` of
`_grade_mcq_multi`: first character of each option, kept when alphabetic,
uppercased. -/
def optionSet (options : List Str) : Finset Char :=
  (options.filterMap fun o =>
    match o with
    | [] => none
    | c :: _ => if c.isAlpha then some c.toUpper else none).toFinset

/-- Parsing of the user's multi-choice answer: uppercase, remove spaces,
split on commas, keep the first character of each chunk whose first
character is alphabetic. -/
def parseMulti (ua : Str) : Finset Char :=
  (((upperL ua).filter (· ≠ ' ')).splitOn ','
    |>.filterMap fun ch =>
      match ch with
      | [] => none
      | c :: _ => if c.isAlpha then some c else none).toFinset

/-- The multi-choice score ratio of `_grade_mcq_multi` in the source's
IEEE double arithmetic: `max(0.0, min(1.0, correctChosen/|C| −
incorrectChosen/|I|))` with each division and the subtraction rounded to
double precision (comparisons, `min` and `max` on doubles are exact);
ratio `0` when `|C| = 0` and penalty term `0` when `|I| = 0`. -/
def floatMultiRatio (U C I : Finset Char) : ℚ :=
  if C.card = 0 then 0
  else
    let rc : ℚ := fdiv ((U ∩ C).card : ℚ) (C.card : ℚ)
    let ri : ℚ := if 0 < I.card then fdiv ((U ∩ I).card : ℚ) (I.card : ℚ) else 0
    max 0 (min 1 (fsub rc ri))

/-- Modelled from the claim's words, for comparison with the code's
`floatMultiRatio`: the same clamp formula in exact rational arithmetic. -/
def exactMultiRatio (U C I : Finset Char) : ℚ :=
  if C.card = 0 then 0
  else
    let rc : ℚ := ((U ∩ C).card : ℚ) / (C.card : ℚ)
    let ri : ℚ := if 0 < I.card then ((U ∩ I).card : ℚ) / (I.card : ℚ) else 0
    max 0 (min 1 (rc - ri))

/-- The three-way decision of the fallback grader: `≥ 0.9` correct,
`≥ 0.4` partially correct, otherwise incorrect (exact thresholds; the
fallback's operands cannot fall inside the gap between `0.9` and its
double neighbour at realizable inputs). -/
def thresholdDecision (r : ℚ) : Str :=
  if 9/10 ≤ r then "correct".data
  else if 2/5 ≤ r then "partially_correct".data
  else "incorrect".data

/-- The three-way decision of `_grade_mcq_multi`: the score ratio is a
double compared against the double literals `0.9` and `0.4`. -/
def floatThresholdDecision (r : ℚ) : Str :=
  if d09 ≤ r then "correct".data
  else if d04 ≤ r then "partially_correct".data
  else "incorrect".data

/-- `_grade_mcq_multi`: partial-credit grading of a multi-choice answer
in the source's double arithmetic (`round(score_ratio * max_points)`
converts `max_points` to double, multiplies with rounding, then rounds
half to even).  Building `correct_choices` raises on a nonempty
all-whitespace key entry, exactly as in the source. -/
def gradeMcqMulti (q : Question) (ua : Str) : Except GErr Grading :=
  match q.correct.mapM normKeyMulti with
  | .error e => .error e
  | .ok _ =>
  let user_choices := parseMulti ua
  let correct_choices := correctSet q.correct
  let all_options := optionSet q.options
  let incorrect_choices := all_options \ correct_choices
  let correct_chosen := (user_choices ∩ correct_choices).card
  let incorrect_chosen := (user_choices ∩ incorrect_choices).card
  let score_ratio := floatMultiRatio user_choices correct_choices incorrect_choices
  let points := pyRound (fmul score_ratio (roundDouble (q.maxPts : ℚ)))
  .ok
    { points_awarded := points
      points_possible := (q.maxPts : ℤ)
      decision := floatThresholdDecision score_ratio
      checks :=
        [⟨"Selected all correct options".data, correct_chosen = correct_choices.card⟩,
         ⟨"No incorrect options selected".data, incorrect_chosen = 0⟩]
      false_positive_guard := true
      false_negative_guard := true }

/-- The false-positive-guard cleaning of `_grade_open_ended`:
`user_answer.strip().replace(".","").replace(",","").replace("!","")
.replace("?","").strip()`. -/
def cleanAnswer (ua : Str) : Str :=
  stripWS ((stripWS ua).filter fun c => ¬ (c = '.' ∨ c = ',' ∨ c = '!' ∨ c = '?'))

/-- The `verdict_map` of `_grade_open_ended`, defaulting to incorrect. -/
def verdictToDecision (v : Str) : Str :=
  if v = "exact".data then "correct".data
  else if v = "semantically_correct".data then "correct".data
  else if v = "partially_correct".data then "partially_correct".data
  else "incorrect".data

/-- Key terms of `_fallback_grading`: whitespace tokens of the lowercased
canonical answer that are longer than 4 characters (a list, so repeated
terms count with multiplicity). -/
def keyTerms (canonical : Str) : List Str :=
  (wordsOf (lowerL canonical)).filter fun w => 4 < w.length

/-- The keyword-overlap fraction of `_fallback_grading`: matched key terms
over all key terms, `0` when there are no key terms. -/
def fallbackRatio (canonical ua : Str) : ℚ :=
  let terms := keyTerms canonical
  let matched := (terms.filter fun t => hasSub (lowerL ua) t).length
  if terms = [] then 0 else (matched : ℚ) / (terms.length : ℚ)

/-- `_fallback_grading`: keyword heuristic used when the oracle fails;
max points hard-coded to 10, both guard flags reported `false`. -/
def fallbackGrading (q : Question) (ua : Str) : Grading :=
  let ratio := fallbackRatio q.canonical ua
  let matchedMet : Bool := decide ((7:ℚ)/10 ≤ ratio)
  { points_awarded := pyTrunc (ratio * 10)
    points_possible := 10
    decision := thresholdDecision ratio
    checks := [⟨"Answer completeness".data, matchedMet⟩]
    false_positive_guard := false
    false_negative_guard := false }

/-- `_grade_open_ended`: oracle-assisted grading.  `oracle = none` stands
for a failed, erroring or unparseable oracle call (the code falls back to
`_fallback_grading` in every such case); `some r` is a parsed structured
verdict.  The false-positive guard fires after the oracle returns, when
the cleaned answer is shorter than 5 characters. -/
def gradeOpenEnded (q : Question) (ua : Str) (oracle : Option OracleResp) : Grading :=
  match oracle with
  | none => fallbackGrading q ua
  | some r =>
    let max_points : ℕ :=
      if q.breakdown = [] then 10 else (q.breakdown.map Criterion.points).sum
    let points0 : ℤ := pyTrunc (r.score * (max_points : ℚ))
    let guard : Bool := decide ((cleanAnswer ua).length < 5)
    let score : ℚ := if guard then 0 else r.score
    let points_awarded : ℤ := if guard then 0 else points0
    let verdict : Str := if guard then "incorrect".data else r.verdict
    let decision := verdictToDecision verdict
    let metFlag : Bool := decide ((7:ℚ)/10 ≤ score)
    { points_awarded := points_awarded
      points_possible := (max_points : ℤ)
      decision := decision
      checks := q.breakdown.map fun c => ⟨c.criterion, metFlag⟩
      false_positive_guard := true
      false_negative_guard := true }

/-- `GradingEngine.grade_answer`: dispatch on the question type; every
type other than the two MCQ types takes the open-ended path. -/
def gradeQuestion (q : Question) (ua : Str) (oracle : Option OracleResp) :
    Except GErr Grading :=
  if q.qtype = "mcq_single".data then gradeMcqSingle q ua
  else if q.qtype = "mcq_multi".data then gradeMcqMulti q ua
  else .ok (gradeOpenEnded q ua oracle)

/-- `int(max_points * 0.7)` exactly as the source computes it: the
integer is converted to double, multiplied by the double `0.7` with
rounding to nearest, and the result truncated toward zero (for `mp = 90`
this gives `62`, one below the exact `⌊0.7 * 90⌋ = 63`). -/
def conceptPoints (mp : ℕ) : ℕ :=
  (pyTrunc (fmul (roundDouble (mp : ℚ)) c07)).toNat

/-- `QuestionGenerator._generate_rubric`: about 70% of the points
(`int(max_points * 0.7)` in double arithmetic) split evenly over the
concepts, with everything left over on a trailing
completeness-and-accuracy criterion. -/
def generateRubric (topic : Str) (max_points : ℕ) (concepts : List Str) :
    List Criterion :=
  let cs := if concepts = [] then [topic] else concepts
  let concept_points := conceptPoints max_points
  let points_per_concept := concept_points / cs.length
  let conceptCriteria := cs.map fun c =>
    (⟨"Correctly explains/uses concept: ".data ++ c, points_per_concept⟩ : Criterion)
  let remaining := max_points - (conceptCriteria.map Criterion.points).sum
  conceptCriteria ++
    [⟨"Answer is complete, accurate, and follows reasoning from notes".data, remaining⟩]

/-- The normalized form of a prompt used by the generator's dedup logic:
`prompt.lower().strip()`. -/
def normPrompt (p : Str) : Str := stripWS (lowerL p)

/-- `QuestionGenerator._is_valid_question`: the normalized prompt must be
nonempty, unseen in this run, and at least 10 characters long. -/
def isValidQuestion (q : Question) (seen : List Str) : Bool :=
  let p := normPrompt q.prompt
  if p = [] then false
  else if seen.contains p then false
  else if p.length < 10 then false
  else true

/-- The accept loop of `QuestionGenerator.generate_questions`: candidates
(the outcomes of single oracle attempts, `none` when no question was
produced) are validated against the prompts accepted so far in the same
run and collected until the requested count is reached. -/
def runGenAux (limit : ℕ) : List (Option Question) → List Question → List Question
  | [], acc => acc.reverse
  | c :: cs, acc =>
    if limit ≤ acc.length then acc.reverse
    else
      match c with
      | none => runGenAux limit cs acc
      | some q =>
        if isValidQuestion q (acc.map fun a => normPrompt a.prompt) then
          runGenAux limit cs (q :: acc)
        else runGenAux limit cs acc

/-- One generation run accepting at most `limit` questions. -/
def runGen (limit : ℕ) (cands : List (Option Question)) : List Question :=
  runGenAux limit cands []

/-- One search result of `PDFGroundingEngine.search_content`
(full page text and source path echoed as in the source). -/
structure SRes where
  page : ℕ
  text : Str
  excerpt : Str
  score : ℕ
  path : Str
deriving DecidableEq

/-- The relevance score of `search_content`: the number of entries of the
whitespace-split, lowercased query that occur as substrings of the
lowercased page text — a repeated query token is counted once per
occurrence in the token list. -/
def multCount (query text : Str) : ℕ :=
  ((wordsOf (lowerL query)).filter fun t => hasSub (lowerL text) t).length

/-- The excerpt of `search_content`: the `±150`-character window of the
page text around the first occurrence of the first query token (in token
order) that matches, stripped of surrounding whitespace. -/
def excerptOf (query text : Str) : Str :=
  let tl := lowerL text
  match (wordsOf (lowerL query)).find? (fun t => hasSub tl t) with
  | none => []
  | some t =>
    let i := (subIdx tl t).getD 0
    let a := i - 150
    let b := min text.length (i + 150)
    stripWS ((text.drop a).take (b - a))

/-- The result `search_content` emits for one page: present exactly when
the page's score is positive. -/
def pageResult (path query : Str) (pr : ℕ × Str) : Option SRes :=
  let score := multCount query pr.2
  if 0 < score then some ⟨pr.1, pr.2, excerptOf query pr.2, score, path⟩ else none

/-- Stable descending insertion: an element passes entries with a strictly
larger score and lands before the first entry whose score is at most its
own, matching the behaviour of Python's stable `list.sort`. -/
def insDesc (x : SRes) : List SRes → List SRes
  | [] => [x]
  | y :: ys => if y.score ≤ x.score then x :: y :: ys else y :: insDesc x ys

/-- Stable sort by score descending (`results.sort(key=..., reverse=True)`
is Python's stable sort; a stable sort's output is unique, so insertion
sort embeds it faithfully). -/
def sortDesc : List SRes → List SRes
  | [] => []
  | x :: xs => insDesc x (sortDesc xs)

/-- `PDFGroundingEngine.search_content` on an extracted page map (pages in
their original order): score each page, keep positive scores, sort
score-descending (stable) and truncate to `maxResults`. -/
def searchContent (path : Str) (pages : List (ℕ × Str)) (query : Str)
    (maxResults : ℕ) : List SRes :=
  (sortDesc (pages.filterMap (pageResult path query))).take maxResults

/-- Modelled from the spec's words for comparison: the score as "the count
of distinct query tokens that occur as substrings of the page text". -/
def specDistinctScore (query text : Str) : ℕ :=
  ((wordsOf (lowerL query)).dedup.filter fun t => hasSub (lowerL text) t).length

/-- `re.sub(r'\s+', ' ', text)`: collapse every whitespace run to one
space. -/
def collapseAux (prevWS : Bool) : Str → Str
  | [] => []
  | c :: cs =>
    if c.isWhitespace then
      if prevWS then collapseAux true cs else ' ' :: collapseAux true cs
    else c :: collapseAux false cs

/-- The text cleaning of `extract_quote`:
`re.sub(r'\s+', ' ', text).strip()`. -/
def collapseWS (s : Str) : Str := stripWS (collapseAux false s)

/-- `re.split(r'[.!?]\s+', t)` on whitespace-collapsed text: split where a
sentence-ending punctuation character is followed by a space, consuming
both. -/
def splitSentAux (cur : Str) : Str → List Str
  | [] => [cur.reverse]
  | [c] => [(c :: cur).reverse]
  | c :: d :: rest =>
    if (c = '.' ∨ c = '!' ∨ c = '?') ∧ d = ' ' then
      cur.reverse :: splitSentAux [] rest
    else splitSentAux (c :: cur) (d :: rest)

/-- The sentence list `extract_quote` iterates over. -/
def sentencesOf (t : Str) : List Str := splitSentAux [] t

/-- The sentence-acceptance test of `extract_quote`:
`5 <= len(sentence.split()) <= max_words`. -/
def quoteOk (maxWords : ℕ) (s : Str) : Bool :=
  decide (5 ≤ (wordsOf s).length) && decide ((wordsOf s).length ≤ maxWords)

/-- `' '.join(words)`: concatenate words with single spaces. -/
def joinSp : List Str → Str
  | [] => []
  | [w] => w
  | w :: ws => w ++ ' ' :: joinSp ws

/-- `PDFGroundingEngine.extract_quote`: the first sentence (in order)
whose word count lies in `[5, maxWords]`, stripped; otherwise the first
`maxWords` words of the cleaned text with `"..."` appended. -/
def extractQuote (text : Str) (maxWords : ℕ) : Str :=
  let t := collapseWS text
  match (sentencesOf t).find? (quoteOk maxWords) with
  | some s => stripWS s
  | none => joinSp ((wordsOf t).take maxWords) ++ "...".data

/-- Modelled from the spec's words for comparison (`_grade_mcq_single`'s
claimed normalization): the first alphabetic character of the answer,
uppercased. -/
def specFirstAlphaUpper (ua : Str) : Option Char :=
  (ua.find? Char.isAlpha).map Char.toUpper

/-- The outcome of `QuizzerV2.grade_answer`: the two typed errors, a
propagated runtime error, or a grading. -/
inductive GradeOut where
  | noActiveQuiz
  | questionNotFound
  | raised (e : GErr)
  | graded (g : Grading)
deriving DecidableEq

/-- The session state of `QuizzerV2` (fields the core claims quantify
over; user bookkeeping is reduced to the tracking flag). -/
structure SessState where
  quiz : Option (List Question)
  idx : ℕ
  hasRequest : Bool
  total : ℕ
  generated : List Question
  loggedIn : Bool
  tracking : Bool
  totalPts : ℤ
  maxPts : ℤ
deriving DecidableEq

/-- The freshly constructed engine: no quiz, cursor 0, nothing generated. -/
def initSess : SessState :=
  { quiz := none, idx := 0, hasRequest := false, total := 0, generated := []
    loggedIn := false, tracking := false, totalPts := 0, maxPts := 0 }

/-- Sequential question IDs `f"q{len(self.generated_questions) + 1}"`. -/
def mkId (n : ℕ) : Str := 'q' :: (toString n).data

/-- `QuizzerV2._generate_next_question`: one fresh single-question
generation run (note the fresh, empty seen-set of that run) with the ID
reassigned sequentially. -/
def nextQuestionGen (gcount : ℕ) (cands : List (Option Question)) :
    Option Question :=
  match runGen 1 cands with
  | [] => none
  | q :: _ => some { q with id := mkId (gcount + 1) }

/-- `QuizzerV2.grade_answer`: typed errors for a missing quiz or an
unknown question ID (returned before any state change), otherwise grading
plus session point-total bookkeeping when a user session is tracked. -/
def gradeAnswerSess (s : SessState) (qid ans : Str)
    (oracle : Option OracleResp) : GradeOut × SessState :=
  match s.quiz with
  | none => (.noActiveQuiz, s)
  | some qs =>
    match qs.find? (fun q => q.id == qid) with
    | none => (.questionNotFound, s)
    | some q =>
      match gradeQuestion q ans oracle with
      | .error e => (.raised e, s)
      | .ok g =>
        if s.tracking then
          (.graded g,
            { s with totalPts := s.totalPts + g.points_awarded
                     maxPts := s.maxPts + g.points_possible })
        else (.graded g, s)

/-- The session operations the claims quantify over.  Oracle behaviour is
carried by the action: candidate questions for generation attempts, a
structured verdict (or failure) for open-ended grading. -/
inductive SessAct where
  | genQuiz (n : ℕ) (cands : List (Option Question))
  | advance (cands : List (Option Question))
  | grade (qid : Str) (ans : Str) (oracle : Option OracleResp)

/-- One engine operation.  `genQuiz` is `generate_quiz` (validation
failures return before mutating, so only the post-validation path is
modelled): store the request, reset generated list, cursor and totals,
then eagerly generate the first question — on failure `current_quiz` is
left untouched.  `advance` is `next_question`: the cursor is always
incremented; a new question is materialized only when the cursor moves
past the materialized list and the requested total is not reached.
`grade` is `grade_answer`. -/
def stepSess (s : SessState) : SessAct → SessState
  | .genQuiz n cands =>
    let s1 := { s with hasRequest := true, total := n, generated := [], idx := 0
                       tracking := s.loggedIn, totalPts := 0, maxPts := 0 }
    match nextQuestionGen 0 cands with
    | some q => { s1 with generated := [q], quiz := some [q] }
    | none => s1
  | .advance cands =>
    if s.quiz = none ∨ s.hasRequest = false then s
    else
      let s1 := { s with idx := s.idx + 1 }
      if s1.generated.length ≤ s1.idx then
        if s1.generated.length < s1.total then
          match nextQuestionGen s1.generated.length cands with
          | some q =>
            { s1 with generated := s1.generated ++ [q]
                      quiz := s1.quiz.map (· ++ [q]) }
          | none => s1
        else s1
      else s1
  | .grade qid ans oracle => (gradeAnswerSess s qid ans oracle).2

/-- A run of the engine from the freshly constructed state. -/
def runSess (acts : List SessAct) : SessState := acts.foldl stepSess initSess

/-- Well-formedness of a question's answer key, exactly the condition
under which the deterministic graders cannot raise: for the single-choice
type the correct list is nonempty and no entry is nonempty all-whitespace,
for the multi-choice type no entry is nonempty all-whitespace. -/
def WellFormedKey (q : Question) : Prop :=
  (q.qtype = "mcq_single".data →
    q.correct ≠ [] ∧ ∀ c ∈ q.correct, c ≠ [] → stripWS c ≠ []) ∧
  (q.qtype = "mcq_multi".data → ∀ c ∈ q.correct, c ≠ [] → stripWS c ≠ [])

/-- Concrete single-choice question: correct option "B", 10 points. -/
def exQSingle : Question :=
  { id := "q1".data, qtype := "mcq_single".data, prompt := "pick one option".data
    options := ["A: x".data, "B: y".data], correct := ["B".data], maxPts := 10
    canonical := [], breakdown := [] }

/-- Concrete multi-choice question: correct set {A, C} among options
{A, B, C, D}, 10 points (the specification's worked example). -/
def exQMulti : Question :=
  { id := "q1".data, qtype := "mcq_multi".data, prompt := "pick many options".data
    options := ["A".data, "B".data, "C".data, "D".data]
    correct := ["A".data, "C".data], maxPts := 10, canonical := [], breakdown := [] }

/-- Concrete multi-choice question exhibiting the float/exact divergence:
correct set {A, B, C, D, E} among options {A, ..., J}, 10 points.  On the
answer "A,B,C,F" the code computes `0.6 - 0.2` in doubles, which is
`0.39999999999999997 < 0.4`, although the exact ratio is `2/5`. -/
def exQMultiF : Question :=
  { id := "q1".data, qtype := "mcq_multi".data, prompt := "pick many options".data
    options := ["A".data, "B".data, "C".data, "D".data, "E".data,
      "F".data, "G".data, "H".data, "I".data, "J".data]
    correct := ["A".data, "B".data, "C".data, "D".data, "E".data]
    maxPts := 10, canonical := [], breakdown := [] }

/-- Concrete open-ended question whose canonical answer is the single key
term `"ok!!!"` (5 characters, hence kept as a key term). -/
def exQOpen : Question :=
  { id := "q1".data, qtype := "short_answer".data, prompt := "say ok loudly".data
    options := [], correct := [], maxPts := 10, canonical := "ok!!!".data
    breakdown := [⟨"mentions ok".data, 10⟩] }

/-- Concrete generated question used in session runs (valid prompt of
length ≥ 10). -/
def exQGen : Question :=
  { id := "x".data, qtype := "short_answer".data
    prompt := "what is tokenization".data, options := [], correct := []
    maxPts := 10, canonical := "tokenization splits text".data, breakdown := [] }

/-- A single-choice question with an empty correct-option list: grading it
indexes `correct_choices[0]` and raises. -/
def exQBad : Question :=
  { id := "q1".data, qtype := "mcq_single".data, prompt := "broken question".data
    options := ["A".data], correct := [], maxPts := 10
    canonical := [], breakdown := [] }

/-- A session whose active quiz contains only the degenerate question. -/
def exBadState : SessState := { initSess with quiz := some [exQBad] }

/-- A session whose active quiz contains one well-formed single-choice
question. -/
def exGoodState : SessState := { initSess with quiz := some [exQSingle] }

/-- A 600-character-style blob: its first sentence has 7 words, its second
(shorter) sentence has 5. -/
def exBlob : Str := "one two three four five six seven. one two three four five.".data

/-- Total description of `normKeySingle`'s successful result (they agree
whenever no entry is nonempty all-whitespace). -/
def singleKeyNorm (c : Str) : Str :=
  if c = [] then []
  else
    match upperL (stripWS c) with
    | [] => []
    | d :: _ => [d]

/-- Total description of `normKeyMulti`'s successful result (they agree
whenever no entry is nonempty all-whitespace). -/
def multiKeyNorm (c : Str) : Option Char :=
  if c = [] then none else keyChar c

/-!  Theorems.  General-purpose lemmas first, then one theorem per claim
(with witnesses and counterexamples). -/

theorem listContains_iff (l : List Str) (a : Str) : l.contains a = true ↔ a ∈ l := by
  rw [show l.contains a = l.elem a from rfl, List.elem_iff]

theorem pyRound_nonneg {q : ℚ} (h : 0 ≤ q) : 0 ≤ pyRound q := by
  unfold pyRound
  have hf : (0:ℤ) ≤ ⌊q⌋ := Int.floor_nonneg.mpr h
  dsimp only
  split_ifs <;> omega

theorem pyRound_le {q : ℚ} {n : ℤ} (h : q ≤ (n:ℚ)) : pyRound q ≤ n := by
  unfold pyRound
  have hf : ⌊q⌋ ≤ n := by
    have := Int.floor_le_floor h
    simpa using this
  have hfl : (⌊q⌋:ℚ) ≤ q := Int.floor_le q
  dsimp only
  split_ifs with h1 h2 h3
  · exact hf
  · have h1' : (1:ℚ)/2 ≤ q - (⌊q⌋:ℚ) := not_lt.mp h1
    have : (⌊q⌋:ℚ) + 1/2 ≤ (n:ℚ) := by linarith
    have hlt : (⌊q⌋:ℚ) < (n:ℚ) := by linarith
    have : ⌊q⌋ < n := by exact_mod_cast hlt
    omega
  · exact hf
  · have h1' : (1:ℚ)/2 ≤ q - (⌊q⌋:ℚ) := not_lt.mp h1
    have : (⌊q⌋:ℚ) + 1/2 ≤ (n:ℚ) := by linarith
    have hlt : (⌊q⌋:ℚ) < (n:ℚ) := by linarith
    have : ⌊q⌋ < n := by exact_mod_cast hlt
    omega

theorem pyRound_intCast (z : ℤ) : pyRound (z:ℚ) = z := by
  norm_num [pyRound, Int.floor_intCast]

theorem pyRound_le_add_half (q : ℚ) : (pyRound q : ℚ) ≤ q + 1/2 := by
  unfold pyRound
  have hfl : (⌊q⌋:ℚ) ≤ q := Int.floor_le q
  dsimp only
  split_ifs with h1 h2 h3
  · linarith
  · have := not_lt.mp h1
    push_cast; linarith
  · linarith
  · have := not_lt.mp h1
    push_cast; linarith

theorem pyRound_le_half (q : ℚ) (n : ℤ) (h : q < (n:ℚ) + 1/2) : pyRound q ≤ n := by
  have hfu : ⌊q⌋ ≤ n := by
    have h1 : ⌊q⌋ < n + 1 := Int.floor_lt.mpr (by push_cast; linarith)
    omega
  have hqf : (⌊q⌋:ℚ) ≤ q := Int.floor_le q
  unfold pyRound
  dsimp only
  split_ifs with h1 h2 h3
  · exact hfu
  · have hlt : (⌊q⌋:ℚ) < (n:ℚ) := by linarith
    have : ⌊q⌋ < n := by exact_mod_cast hlt
    omega
  · exact hfu
  · have h1' := not_lt.mp h1
    have hlt : (⌊q⌋:ℚ) < (n:ℚ) := by linarith
    have : ⌊q⌋ < n := by exact_mod_cast hlt
    omega

theorem pyRound_eq_of (q : ℚ) (n : ℤ) (h1 : (n:ℚ) - 1/2 < q)
    (h2 : q < (n:ℚ) + 1/2) : pyRound q = n := by
  have hfl : n - 1 ≤ ⌊q⌋ := Int.le_floor.mpr (by push_cast; linarith)
  have hfu : ⌊q⌋ < n + 1 := Int.floor_lt.mpr (by push_cast; linarith)
  have hqf : (⌊q⌋:ℚ) ≤ q := Int.floor_le q
  have hqf2 : q < (⌊q⌋:ℚ) + 1 := Int.lt_floor_add_one q
  unfold pyRound
  dsimp only
  rcases (by omega : ⌊q⌋ = n ∨ ⌊q⌋ = n - 1) with hf | hf
  · rw [hf, if_pos (by linarith : q - ((n:ℤ):ℚ) < 1/2)]
  · rw [hf] at hqf ⊢
    rw [if_neg (by push_cast at hqf ⊢; linarith :
          ¬(q - ((n - 1 : ℤ):ℚ) < 1/2)),
        if_pos (by push_cast at hqf ⊢; linarith :
          (1:ℚ)/2 < q - ((n - 1 : ℤ):ℚ))]
    omega

theorem pyRound_tie_odd (q : ℚ) (n : ℤ) (hq : q = (n:ℚ) + 1/2)
    (hodd : n % 2 = 1) : pyRound q = n + 1 := by
  have hf : ⌊q⌋ = n := by
    apply Int.floor_eq_iff.mpr
    constructor
    · rw [hq]; linarith
    · rw [hq]; linarith
  unfold pyRound
  dsimp only
  rw [hf, hq, show ((n:ℚ) + 1/2) - (n:ℚ) = 1/2 from by ring,
    if_neg (by norm_num), if_neg (by norm_num), if_neg (by omega)]

theorem pyTrunc_eq_floor (q : ℚ) : pyTrunc q = ⌊q⌋ := by
  unfold pyTrunc
  conv_rhs => rw [← Rat.num_div_den q]
  exact (Rat.floor_intCast_div_natCast q.num q.den).symm

theorem ilog2q_spec (x : ℚ) (hx : 0 < x) :
    (2:ℚ) ^ ilog2q x ≤ x ∧ x < (2:ℚ) ^ (ilog2q x + 1) := by
  unfold ilog2q
  set s : ℕ := Nat.log2 x.den + 1 with hs
  set y : ℚ := x * ((2 ^ s : ℕ) : ℚ) with hy
  set N : ℕ := (⌊y⌋).toNat with hN
  set k : ℕ := Nat.log2 N with hk
  have hdpos : 0 < x.den := x.pos
  have hdlt : x.den < 2 ^ s := by rw [hs]; exact Nat.lt_log2_self
  have h2s : (0:ℚ) < ((2^s : ℕ) : ℚ) := by positivity
  have hdq : (0:ℚ) < (x.den : ℚ) := by exact_mod_cast hdpos
  have hy1 : 1 < y := by
    rw [hy]
    have hnum : (1:ℚ) ≤ (x.num : ℚ) := by
      have h0 : 0 < x.num := Rat.num_pos.mpr hx
      exact_mod_cast h0
    have hxge : (1:ℚ) / (x.den : ℚ) ≤ x := by
      conv_rhs => rw [← Rat.num_div_den x]
      exact (div_le_div_iff_of_pos_right hdq).mpr hnum
    have hlt : (x.den : ℚ) < ((2^s : ℕ) : ℚ) := by exact_mod_cast hdlt
    calc (1:ℚ) < ((2^s:ℕ):ℚ) / (x.den:ℚ) := by
          rw [lt_div_iff₀ hdq]; linarith
      _ = (1 / (x.den:ℚ)) * ((2^s:ℕ):ℚ) := by ring
      _ ≤ x * ((2^s:ℕ):ℚ) := mul_le_mul_of_nonneg_right hxge (le_of_lt h2s)
  have hfl1 : 1 ≤ ⌊y⌋ := Int.le_floor.mpr (by exact_mod_cast hy1.le)
  have hNfl : ((N:ℤ)) = ⌊y⌋ := by rw [hN]; exact Int.toNat_of_nonneg (by omega)
  have hN1 : 1 ≤ N := by omega
  have hk1 : 2 ^ k ≤ N := by
    rw [hk, Nat.log2_eq_log_two]
    exact Nat.pow_log_le_self 2 (by omega)
  have hk2 : N < 2 ^ (k + 1) := by
    rw [hk, Nat.log2_eq_log_two]
    exact Nat.lt_pow_succ_log_self (by norm_num) N
  have hq1 : ((2^k : ℕ) : ℚ) ≤ y := by
    calc ((2^k:ℕ):ℚ) ≤ ((N:ℕ):ℚ) := by exact_mod_cast hk1
      _ = ((⌊y⌋ : ℤ) : ℚ) := by exact_mod_cast hNfl
      _ ≤ y := Int.floor_le y
  have hq2 : y < ((2^(k+1) : ℕ) : ℚ) := by
    have hstep : ⌊y⌋ + 1 ≤ ((2^(k+1) : ℕ) : ℤ) := by
      have : ((N:ℤ)) < ((2^(k+1) : ℕ) : ℤ) := by exact_mod_cast hk2
      omega
    calc y < ((⌊y⌋:ℤ):ℚ) + 1 := Int.lt_floor_add_one y
      _ ≤ ((2^(k+1):ℕ):ℚ) := by exact_mod_cast hstep
  have hxy : x = y / ((2^s:ℕ):ℚ) := by
    rw [hy]; field_simp
  have hzk : ((2^k : ℕ):ℚ) = (2:ℚ) ^ ((k:ℕ):ℤ) := by
    rw [zpow_natCast]; push_cast; ring
  have hzs : ((2^s : ℕ):ℚ) = (2:ℚ) ^ ((s:ℕ):ℤ) := by
    rw [zpow_natCast]; push_cast; ring
  have hzk1 : ((2^(k+1) : ℕ):ℚ) = (2:ℚ) ^ (((k:ℕ):ℤ)+1) := by
    rw [show (((k:ℕ):ℤ)+1) = (((k+1 : ℕ):ℕ):ℤ) from by push_cast; ring, zpow_natCast]
    push_cast; ring
  constructor
  · rw [hxy, zpow_sub₀ (by norm_num : (2:ℚ) ≠ 0), ← hzk, ← hzs]
    exact (div_le_div_iff_of_pos_right h2s).mpr hq1
  · rw [hxy, show ((k:ℕ):ℤ) - ((s:ℕ):ℤ) + 1 = (((k:ℕ):ℤ)+1) - ((s:ℕ):ℤ) from by ring,
      zpow_sub₀ (by norm_num : (2:ℚ) ≠ 0), ← hzk1, ← hzs]
    exact (div_lt_div_iff_of_pos_right h2s).mpr hq2

theorem ilog2q_eq (x : ℚ) (e : ℤ) (hx : 0 < x)
    (hlo : (2:ℚ)^e ≤ x) (hhi : x < (2:ℚ)^(e+1)) : ilog2q x = e := by
  obtain ⟨h1, h2⟩ := ilog2q_spec x hx
  by_contra hne
  rcases lt_or_gt_of_ne hne with hlt | hgt
  · have : (2:ℚ)^(ilog2q x + 1) ≤ (2:ℚ)^e :=
      zpow_le_zpow_right₀ (by norm_num) (by omega)
    linarith
  · have : (2:ℚ)^(e+1) ≤ (2:ℚ)^(ilog2q x) :=
      zpow_le_zpow_right₀ (by norm_num) (by omega)
    linarith

theorem roundDouble_zero : roundDouble 0 = 0 := by
  unfold roundDouble
  simp

theorem roundDouble_eval (x : ℚ) (e : ℤ) (hx : 0 < x)
    (hlo : (2:ℚ)^e ≤ x) (hhi : x < (2:ℚ)^(e+1)) :
    roundDouble x = (pyRound (x * (2:ℚ)^(52 - e)) : ℚ) * (2:ℚ)^(e - 52) := by
  unfold roundDouble
  rw [if_neg (ne_of_gt hx), if_pos hx, ilog2q_eq x e hx hlo hhi]

theorem roundDouble_nonneg (x : ℚ) (hx : 0 ≤ x) : 0 ≤ roundDouble x := by
  rcases eq_or_lt_of_le hx with h | h
  · rw [← h, roundDouble_zero]
  · obtain ⟨h1, h2⟩ := ilog2q_spec x h
    rw [roundDouble_eval x (ilog2q x) h h1 h2]
    have hm : (0:ℚ) ≤ x * (2:ℚ)^(52 - ilog2q x) :=
      mul_nonneg h.le (zpow_pos (by norm_num) _).le
    have hp : (0:ℚ) ≤ (pyRound (x * (2:ℚ)^(52 - ilog2q x)) : ℚ) := by
      exact_mod_cast pyRound_nonneg hm
    exact mul_nonneg hp (zpow_pos (by norm_num) _).le

theorem roundDouble_le (x : ℚ) (hx : 0 ≤ x) : roundDouble x ≤ x + x / 2^53 := by
  rcases eq_or_lt_of_le hx with h | h
  · rw [← h, roundDouble_zero]; norm_num
  · obtain ⟨h1, h2⟩ := ilog2q_spec x h
    rw [roundDouble_eval x (ilog2q x) h h1 h2]
    set e := ilog2q x with he
    have hu : (0:ℚ) < (2:ℚ)^(e - 52) := zpow_pos (by norm_num) _
    have hb := pyRound_le_add_half (x * (2:ℚ)^(52 - e))
    have step1 : (pyRound (x * (2:ℚ)^(52 - e)) : ℚ) * (2:ℚ)^(e-52) ≤
        (x * (2:ℚ)^(52 - e) + 1/2) * (2:ℚ)^(e-52) :=
      mul_le_mul_of_nonneg_right hb hu.le
    have hcancel : x * (2:ℚ)^(52 - e) * (2:ℚ)^(e - 52) = x := by
      rw [mul_assoc, ← zpow_add₀ (by norm_num : (2:ℚ) ≠ 0)]
      norm_num
    have hhalf : (1:ℚ)/2 * (2:ℚ)^(e - 52) ≤ x / 2^53 := by
      have hsplit : (1:ℚ)/2 * (2:ℚ)^(e-52) = (2:ℚ)^e * (2:ℚ)^(-(53:ℤ)) := by
        rw [← zpow_add₀ (by norm_num : (2:ℚ) ≠ 0),
          show e + -(53:ℤ) = (e - 52) + (-1) from by ring,
          zpow_add₀ (by norm_num : (2:ℚ) ≠ 0), zpow_neg, zpow_one]
        ring
      have h253 : (2:ℚ)^(-(53:ℤ)) = 1/2^53 := by norm_num
      rw [hsplit]
      calc (2:ℚ)^e * (2:ℚ)^(-(53:ℤ)) ≤ x * (2:ℚ)^(-(53:ℤ)) :=
            mul_le_mul_of_nonneg_right h1 (zpow_pos (by norm_num) _).le
        _ = x / 2^53 := by rw [h253]; ring
    have step2 : (pyRound (x * (2:ℚ)^(52 - e)) : ℚ) * (2:ℚ)^(e-52) ≤
        x + 1/2 * (2:ℚ)^(e-52) := by
      have expand : (x * (2:ℚ)^(52-e) + 1/2) * (2:ℚ)^(e-52) =
          x + 1/2 * (2:ℚ)^(e-52) := by
        rw [add_mul, hcancel]
      rw [expand] at step1
      exact step1
    linarith

theorem roundDouble_natCast (n : ℕ) (hn : n < 2^53) : roundDouble (n:ℚ) = n := by
  rcases Nat.eq_zero_or_pos n with h0 | h0
  · rw [h0]
    simpa using roundDouble_zero
  · have hq : (0:ℚ) < (n:ℚ) := by exact_mod_cast h0
    obtain ⟨h1, h2⟩ := ilog2q_spec (n:ℚ) hq
    set e := ilog2q (n:ℚ) with he
    have he0 : 0 ≤ e := by
      by_contra hneg
      push_neg at hneg
      have hle : (2:ℚ)^(e+1) ≤ (2:ℚ)^(0:ℤ) :=
        zpow_le_zpow_right₀ (by norm_num) (by omega)
      rw [zpow_zero] at hle
      have hone : (1:ℚ) ≤ (n:ℚ) := by exact_mod_cast h0
      linarith
    have he52 : e ≤ 52 := by
      by_contra hgt
      push_neg at hgt
      have hle : (2:ℚ)^((53:ℕ):ℤ) ≤ (2:ℚ)^e :=
        zpow_le_zpow_right₀ (by norm_num) (by omega)
      rw [zpow_natCast] at hle
      have hlt : (n:ℚ) < ((2^53 : ℕ):ℚ) := by exact_mod_cast hn
      push_cast at hlt
      linarith
    rw [roundDouble_eval (n:ℚ) e hq h1 h2]
    set k : ℕ := (52 - e).toNat with hk
    have hke : (52 : ℤ) - e = ((k:ℕ):ℤ) := by rw [hk]; omega
    have hm : (n:ℚ) * (2:ℚ)^(52 - e) = (((n * 2^k : ℕ) : ℤ) : ℚ) := by
      rw [hke, zpow_natCast]
      push_cast
      ring
    rw [hm, pyRound_intCast]
    have hke2 : e - 52 = -((k:ℕ):ℤ) := by omega
    rw [hke2, zpow_neg, zpow_natCast]
    have h2k : ((2:ℚ)^k) ≠ 0 := by positivity
    push_cast
    rw [mul_assoc, mul_inv_cancel₀ h2k, mul_one]

/-- The double nearest `0.9` is `8106479329266893 / 2^53`, slightly above
`9/10`. -/
theorem d09_eq : d09 = 8106479329266893 / 9007199254740992 := by
  unfold d09
  rw [roundDouble_eval (9/10) (-1) (by norm_num) (by norm_num) (by norm_num)]
  rw [show (52 : ℤ) - (-1) = ((53:ℕ):ℤ) from by norm_num, zpow_natCast]
  rw [show (-1 : ℤ) - 52 = -((53:ℕ):ℤ) from by norm_num, zpow_neg, zpow_natCast]
  rw [show pyRound ((9:ℚ)/10 * 2^(53:ℕ)) = 8106479329266893 from
    pyRound_eq_of _ _ (by norm_num) (by norm_num)]
  norm_num

/-- The double nearest `0.4` is `7205759403792794 / 2^54`, slightly above
`2/5`. -/
theorem d04_eq : d04 = 7205759403792794 / 18014398509481984 := by
  unfold d04
  rw [roundDouble_eval (2/5) (-2) (by norm_num) (by norm_num) (by norm_num)]
  rw [show (52 : ℤ) - (-2) = ((54:ℕ):ℤ) from by norm_num, zpow_natCast]
  rw [show (-2 : ℤ) - 52 = -((54:ℕ):ℤ) from by norm_num, zpow_neg, zpow_natCast]
  rw [show pyRound ((2:ℚ)/5 * 2^(54:ℕ)) = 7205759403792794 from
    pyRound_eq_of _ _ (by norm_num) (by norm_num)]
  norm_num

/-- The double nearest `0.7` is `6305039478318694 / 2^53`, slightly below
`7/10`. -/
theorem c07_eq : c07 = 6305039478318694 / 9007199254740992 := by
  unfold c07
  rw [roundDouble_eval (7/10) (-1) (by norm_num) (by norm_num) (by norm_num)]
  rw [show (52 : ℤ) - (-1) = ((53:ℕ):ℤ) from by norm_num, zpow_natCast]
  rw [show (-1 : ℤ) - 52 = -((53:ℕ):ℤ) from by norm_num, zpow_neg, zpow_natCast]
  rw [show pyRound ((7:ℚ)/10 * 2^(53:ℕ)) = 6305039478318694 from
    pyRound_eq_of _ _ (by norm_num) (by norm_num)]
  norm_num

theorem d04_le_d09 : d04 ≤ d09 := by
  rw [d04_eq, d09_eq]
  norm_num

theorem floatMultiRatio_nonneg (U C I : Finset Char) :
    0 ≤ floatMultiRatio U C I := by
  unfold floatMultiRatio
  dsimp only
  split_ifs
  · exact le_refl 0
  · exact le_max_left 0 _
  · exact le_max_left 0 _

theorem floatMultiRatio_le_one (U C I : Finset Char) :
    floatMultiRatio U C I ≤ 1 := by
  unfold floatMultiRatio
  dsimp only
  split_ifs
  · norm_num
  · exact max_le (by norm_num) (min_le_left _ _)
  · exact max_le (by norm_num) (min_le_left _ _)

theorem floatThreshold_correct_iff (r : ℚ) :
    floatThresholdDecision r = "correct".data ↔ d09 ≤ r := by
  unfold floatThresholdDecision
  split_ifs with h1 h2
  · exact iff_of_true rfl h1
  · exact iff_of_false (by decide) h1
  · exact iff_of_false (by decide) h1

theorem floatThreshold_partial_iff (r : ℚ) :
    floatThresholdDecision r = "partially_correct".data ↔ d04 ≤ r ∧ r < d09 := by
  unfold floatThresholdDecision
  split_ifs with h1 h2
  · exact iff_of_false (by decide) fun hc => absurd h1 (not_le.mpr hc.2)
  · exact iff_of_true rfl ⟨h2, not_le.mp h1⟩
  · exact iff_of_false (by decide) fun hc => h2 hc.1

theorem floatThreshold_incorrect_iff (r : ℚ) :
    floatThresholdDecision r = "incorrect".data ↔ r < d04 := by
  unfold floatThresholdDecision
  split_ifs with h1 h2
  · exact iff_of_false (by decide) (not_lt.mpr (le_trans d04_le_d09 h1))
  · exact iff_of_false (by decide) (not_lt.mpr h2)
  · exact iff_of_true rfl (not_le.mp h2)

theorem conceptPoints_le (mp : ℕ) : conceptPoints mp ≤ mp := by
  unfold conceptPoints
  rcases Nat.eq_zero_or_pos mp with h0 | h0
  · have hf0 : fmul (roundDouble ((mp:ℕ):ℚ)) c07 = 0 := by
      rw [h0, Nat.cast_zero, roundDouble_zero]
      unfold fmul
      rw [zero_mul, roundDouble_zero]
    rw [hf0, pyTrunc_eq_floor]
    simp [h0]
  · have hmpq : (1:ℚ) ≤ (mp:ℚ) := by exact_mod_cast h0
    have hmp0 : (0:ℚ) ≤ (mp:ℚ) := by linarith
    have hrd0 : 0 ≤ roundDouble (mp:ℚ) := roundDouble_nonneg _ hmp0
    have hrd : roundDouble (mp:ℚ) ≤ (mp:ℚ) + (mp:ℚ)/2^53 := roundDouble_le _ hmp0
    have hc7 : c07 ≤ 7/10 := by rw [c07_eq]; norm_num
    have hc70 : (0:ℚ) ≤ c07 := by rw [c07_eq]; norm_num
    have hprod : roundDouble (mp:ℚ) * c07 ≤ ((mp:ℚ) + (mp:ℚ)/2^53) * (7/10) :=
      mul_le_mul hrd hc7 hc70 (by linarith)
    have hprod0 : (0:ℚ) ≤ roundDouble (mp:ℚ) * c07 := mul_nonneg hrd0 hc70
    have hfm : fmul (roundDouble (mp:ℚ)) c07 ≤ (mp:ℚ) := by
      unfold fmul
      have h2 := roundDouble_le _ hprod0
      have h3 : roundDouble (mp:ℚ) * c07 / 2^53 ≤
          ((mp:ℚ) + (mp:ℚ)/2^53) * (7/10) / 2^53 :=
        (div_le_div_iff_of_pos_right (by positivity)).mpr hprod
      have h4 : ((mp:ℚ) + (mp:ℚ)/2^53) * (7/10) +
          ((mp:ℚ) + (mp:ℚ)/2^53) * (7/10) / 2^53 =
          (mp:ℚ) * ((7/10) * (1 + 1/2^53) * (1 + 1/2^53)) := by
        ring
      have h5 : (mp:ℚ) * ((7/10) * (1 + 1/2^53) * (1 + 1/2^53)) ≤ (mp:ℚ) * 1 :=
        mul_le_mul_of_nonneg_left (by norm_num) hmp0
      linarith
    have hfl : pyTrunc (fmul (roundDouble (mp:ℚ)) c07) ≤ (mp:ℤ) := by
      rw [pyTrunc_eq_floor]
      have := Int.floor_le_floor hfm
      rw [Int.floor_natCast] at this
      exact this
    omega

theorem threshold_correct_iff (r : ℚ) :
    thresholdDecision r = "correct".data ↔ 9/10 ≤ r := by
  unfold thresholdDecision
  split_ifs with h1 h2
  · exact iff_of_true rfl h1
  · exact iff_of_false (by decide) h1
  · exact iff_of_false (by decide) h1

theorem threshold_partial_iff (r : ℚ) :
    thresholdDecision r = "partially_correct".data ↔ 2/5 ≤ r ∧ r < 9/10 := by
  unfold thresholdDecision
  split_ifs with h1 h2
  · exact iff_of_false (by decide) fun hc => absurd h1 (not_le.mpr hc.2)
  · exact iff_of_true rfl ⟨h2, not_le.mp h1⟩
  · exact iff_of_false (by decide) fun hc => h2 hc.1

theorem threshold_incorrect_iff (r : ℚ) :
    thresholdDecision r = "incorrect".data ↔ r < 2/5 := by
  unfold thresholdDecision
  split_ifs with h1 h2
  · exact iff_of_false (by decide) (not_lt.mpr (le_trans (by norm_num) h1))
  · exact iff_of_false (by decide) (not_lt.mpr h2)
  · exact iff_of_true rfl (not_le.mp h2)

theorem mapM_normKeySingle (l : List Str) (hwf : ∀ c ∈ l, c ≠ [] → stripWS c ≠ []) :
    l.mapM normKeySingle = .ok (l.map singleKeyNorm) := by
  rw [← List.mapM'_eq_mapM]
  induction l with
  | nil => rfl
  | cons c t ih =>
    have hc : normKeySingle c = .ok (singleKeyNorm c) := by
      unfold normKeySingle singleKeyNorm
      by_cases hce : c = []
      · simp [hce]
      · have hst : stripWS c ≠ [] := hwf c (by simp) hce
        cases hu : upperL (stripWS c) with
        | nil =>
          exact absurd (by simpa [upperL] using hu) hst
        | cons d ds => simp [hce, hu]
    have ht := ih fun x hx hne => hwf x (List.mem_cons_of_mem _ hx) hne
    simp [List.mapM', hc, ht]
    rfl

theorem mapM_normKeyMulti (l : List Str) (hwf : ∀ c ∈ l, c ≠ [] → stripWS c ≠ []) :
    l.mapM normKeyMulti = .ok (l.map multiKeyNorm) := by
  rw [← List.mapM'_eq_mapM]
  induction l with
  | nil => rfl
  | cons c t ih =>
    have hc : normKeyMulti c = .ok (multiKeyNorm c) := by
      unfold normKeyMulti multiKeyNorm keyChar
      by_cases hce : c = []
      · simp [hce]
      · have hst : stripWS c ≠ [] := hwf c (by simp) hce
        cases hu : upperL (stripWS c) with
        | nil =>
          exact absurd (by simpa [upperL] using hu) hst
        | cons d ds => simp [hce, hu]
    have ht := ih fun x hx hne => hwf x (List.mem_cons_of_mem _ hx) hne
    simp [List.mapM', hc, ht]
    rfl

/-- C1 (amended): for every multi-choice question (with correct set `C`,
declared option set `A`, `I = A − C`, max points below `2^52`) and every
answer parsed to the selected set `U`, `_grade_mcq_multi` computes the
score ratio in IEEE double arithmetic — each division and the subtraction
rounded to the nearest double, then clamped to `[0,1]` (ratio `0` when
`|C| = 0`, penalty term `0` when `|I| = 0`).  The ratio lies in `[0,1]`,
the awarded points `round(ratio ⊛ maxPoints)` (double multiplication) lie
in `[0, maxPoints]`, and the decision compares the float ratio against
the doubles nearest `0.9` and `0.4` (both slightly above those decimals),
not against the exact thresholds of the claim: a float ratio one ulp
below `0.4` (e.g. `0.6 - 0.2` in doubles) is decided incorrect although
the claim's exact formula yields exactly `2/5`. -/
theorem mcq_multi_grading_spec (q : Question) (ua : Str)
    (hwf : ∀ c ∈ q.correct, c ≠ [] → stripWS c ≠ [])
    (hmp : q.maxPts < 2^52)
    (U C A I : Finset Char) (r : ℚ)
    (hU : U = parseMulti ua) (hC : C = correctSet q.correct)
    (hA : A = optionSet q.options) (hI : I = A \ C)
    (hr : r = floatMultiRatio U C I) :
    ∃ g, gradeMcqMulti q ua = .ok g ∧
      r = (if C.card = 0 then 0
           else max 0 (min 1 (fsub (fdiv ((U ∩ C).card : ℚ) (C.card : ℚ))
             (if I.card = 0 then 0
              else fdiv ((U ∩ I).card : ℚ) (I.card : ℚ))))) ∧
      0 ≤ r ∧ r ≤ 1 ∧
      g.points_awarded = pyRound (fmul r (roundDouble (q.maxPts : ℚ))) ∧
      0 ≤ g.points_awarded ∧ g.points_awarded ≤ (q.maxPts : ℤ) ∧
      g.points_possible = (q.maxPts : ℤ) ∧
      (g.decision = "correct".data ↔ d09 ≤ r) ∧
      (g.decision = "partially_correct".data ↔ d04 ≤ r ∧ r < d09) ∧
      (g.decision = "incorrect".data ↔ r < d04) := by
  subst hU hC hA hI hr
  have hmap := mapM_normKeyMulti q.correct hwf
  have hg : gradeMcqMulti q ua =
      .ok
        { points_awarded := pyRound (fmul (floatMultiRatio (parseMulti ua)
            (correctSet q.correct) (optionSet q.options \ correctSet q.correct))
            (roundDouble (q.maxPts : ℚ)))
          points_possible := (q.maxPts : ℤ)
          decision := floatThresholdDecision (floatMultiRatio (parseMulti ua)
            (correctSet q.correct) (optionSet q.options \ correctSet q.correct))
          checks :=
            [⟨"Selected all correct options".data,
              decide ((parseMulti ua ∩ correctSet q.correct).card = (correctSet q.correct).card)⟩,
             ⟨"No incorrect options selected".data,
              decide ((parseMulti ua ∩ (optionSet q.options \ correctSet q.correct)).card = 0)⟩]
          false_positive_guard := true
          false_negative_guard := true } := by
    unfold gradeMcqMulti
    rw [hmap]
  set rr := floatMultiRatio (parseMulti ua) (correctSet q.correct)
      (optionSet q.options \ correctSet q.correct) with hrr
  have h0 := floatMultiRatio_nonneg (parseMulti ua) (correctSet q.correct)
      (optionSet q.options \ correctSet q.correct)
  have h1 := floatMultiRatio_le_one (parseMulti ua) (correctSet q.correct)
      (optionSet q.options \ correctSet q.correct)
  have hmp53 : q.maxPts < 2^53 := lt_of_lt_of_le hmp (by norm_num)
  have hrdmp : roundDouble (q.maxPts : ℚ) = (q.maxPts : ℚ) :=
    roundDouble_natCast _ hmp53
  refine ⟨_, hg, ?_, ?_, ?_, rfl, ?_, ?_, rfl, ?_, ?_, ?_⟩
  · rw [hrr]
    unfold floatMultiRatio
    dsimp only
    by_cases hc0 : (correctSet q.correct).card = 0
    · simp [hc0]
    · by_cases hi0 : (optionSet q.options \ correctSet q.correct).card = 0
      · simp [hc0, hi0]
      · simp [hc0, hi0, Nat.pos_of_ne_zero hi0]
  · exact h0
  · exact h1
  · apply pyRound_nonneg
    unfold fmul
    refine roundDouble_nonneg _ (mul_nonneg h0 ?_)
    exact roundDouble_nonneg _ (by positivity)
  · apply pyRound_le_half
    unfold fmul
    rw [hrdmp]
    have hle : rr * (q.maxPts:ℚ) ≤ (q.maxPts:ℚ) := by
      calc rr * (q.maxPts:ℚ) ≤ 1 * (q.maxPts:ℚ) :=
            mul_le_mul_of_nonneg_right h1 (by positivity)
        _ = (q.maxPts:ℚ) := one_mul _
    have hq52 : (q.maxPts:ℚ) < 2^52 := by exact_mod_cast hmp
    have hsmall : (q.maxPts:ℚ)/2^53 < 1/2 := by
      rw [div_lt_iff₀ (by positivity : (0:ℚ) < 2^53)]
      calc (q.maxPts:ℚ) < 2^52 := hq52
        _ = 1/2 * 2^53 := by norm_num
    have hb := roundDouble_le (rr * (q.maxPts:ℚ))
      (mul_nonneg h0 (by positivity))
    have hdiv : rr * (q.maxPts:ℚ) / 2^53 ≤ (q.maxPts:ℚ)/2^53 :=
      (div_le_div_iff_of_pos_right (by positivity)).mpr hle
    push_cast
    linarith
  · exact floatThreshold_correct_iff rr
  · exact floatThreshold_partial_iff rr
  · exact floatThreshold_incorrect_iff rr

/-- Witness for C1 at the specification's worked example: correct set
{A,C}, options {A,B,C,D}, answer "A,B" — the double ratio is exactly
`0.5 - 0.5 = 0`, graded incorrect with 0 points. -/
theorem mcq_multi_grading_spec_witness :
    ((∀ c ∈ exQMulti.correct, c ≠ [] → stripWS c ≠ []) ∧ exQMulti.maxPts < 2^52) ∧
    ∃ g, gradeMcqMulti exQMulti "A,B".data = .ok g ∧
      g.decision = "incorrect".data ∧ g.points_awarded = 0 := by
  refine ⟨⟨by decide, show (10:ℕ) < 2^52 by norm_num⟩, ?_⟩
  obtain ⟨g, hg, hform, hr0, hr1, hpa, hpa0, hpam, hpp, hciff, hpiff, hiiff⟩ :=
    mcq_multi_grading_spec exQMulti ("A,B".data) (by decide)
      (show (10:ℕ) < 2^52 by norm_num) _ _ _ _ _
      rfl rfl rfl rfl rfl
  have hU : parseMulti "A,B".data = {'A','B'} := by decide
  have hC : correctSet exQMulti.correct = {'A','C'} := by decide
  have hIeq : optionSet exQMulti.options \ correctSet exQMulti.correct =
      ({'B','D'} : Finset Char) := by decide
  have hdiv12 : roundDouble ((1:ℚ)/2) = 1/2 := by
    rw [roundDouble_eval (1/2) (-1) (by norm_num) (by norm_num) (by norm_num)]
    rw [show (52:ℤ) - (-1) = ((53:ℕ):ℤ) from by norm_num, zpow_natCast,
        show (-1:ℤ) - 52 = -((53:ℕ):ℤ) from by norm_num, zpow_neg, zpow_natCast]
    rw [show pyRound ((1:ℚ)/2 * 2^(53:ℕ)) = 4503599627370496 from
      pyRound_eq_of _ _ (by norm_num) (by norm_num)]
    norm_num
  have hratio : floatMultiRatio (parseMulti "A,B".data) (correctSet exQMulti.correct)
      (optionSet exQMulti.options \ correctSet exQMulti.correct) = 0 := by
    rw [hIeq, hU, hC]
    have e1 : (({'A','B'} : Finset Char) ∩ {'A','C'}).card = 1 := by decide
    have e2 : (({'A','B'} : Finset Char) ∩ {'B','D'}).card = 1 := by decide
    have e3 : ({'A','C'} : Finset Char).card = 2 := by decide
    have e4 : ({'B','D'} : Finset Char).card = 2 := by decide
    unfold floatMultiRatio
    rw [e1, e2, e3, e4]
    have hfd : fdiv ((1:ℕ):ℚ) ((2:ℕ):ℚ) = 1/2 := by
      unfold fdiv
      rw [show ((1:ℕ):ℚ) / ((2:ℕ):ℚ) = (1:ℚ)/2 from by norm_num]
      exact hdiv12
    rw [if_neg (by norm_num : ¬((2:ℕ) = 0)), if_pos (by norm_num : (0:ℕ) < 2), hfd]
    dsimp only
    have hfs : fsub ((1:ℚ)/2) ((1:ℚ)/2) = 0 := by
      unfold fsub
      rw [show (1:ℚ)/2 - 1/2 = 0 from by ring, roundDouble_zero]
    rw [hfs]
    norm_num
  refine ⟨g, hg, hiiff.mpr (by rw [hratio, d04_eq]; norm_num), ?_⟩
  rw [hpa, hratio]
  have hfm0 : fmul 0 (roundDouble ((exQMulti.maxPts : ℕ):ℚ)) = 0 := by
    unfold fmul
    rw [zero_mul, roundDouble_zero]
  rw [hfm0]
  norm_num [pyRound]

/-- Counterexample to C1 as stated: on correct set {A,…,E}, options
{A,…,J} and answer "A,B,C,F" the code computes `0.6 - 0.2` in doubles,
giving `7205759403792793/2^54 ≈ 0.39999999999999997`, strictly below the
double `0.4`, so the decision is `incorrect` — while the claim's exact
clamp formula yields exactly `2/5`, which lies in the claim's
partially-correct band `[0.4, 0.9)`. -/
theorem mcq_multi_float_counterexample :
    (∃ g, gradeMcqMulti exQMultiF "A,B,C,F".data = .ok g ∧
      g.decision = "incorrect".data) ∧
    exactMultiRatio (parseMulti "A,B,C,F".data) (correctSet exQMultiF.correct)
      (optionSet exQMultiF.options \ correctSet exQMultiF.correct) = 2/5 ∧
    ((2:ℚ)/5 ≤ 2/5 ∧ (2:ℚ)/5 < 9/10) := by
  have hU : parseMulti "A,B,C,F".data = {'A','B','C','F'} := by decide
  have hC : correctSet exQMultiF.correct = {'A','B','C','D','E'} := by decide
  have hIeq : optionSet exQMultiF.options \ correctSet exQMultiF.correct =
      ({'F','G','H','I','J'} : Finset Char) := by decide
  have e1 : (({'A','B','C','F'} : Finset Char) ∩ {'A','B','C','D','E'}).card = 3 := by
    decide
  have e2 : (({'A','B','C','F'} : Finset Char) ∩ {'F','G','H','I','J'}).card = 1 := by
    decide
  have e3 : ({'A','B','C','D','E'} : Finset Char).card = 5 := by decide
  have e4 : ({'F','G','H','I','J'} : Finset Char).card = 5 := by decide
  have hd35 : roundDouble ((3:ℚ)/5) = 5404319552844595/9007199254740992 := by
    rw [roundDouble_eval (3/5) (-1) (by norm_num) (by norm_num) (by norm_num)]
    rw [show (52:ℤ) - (-1) = ((53:ℕ):ℤ) from by norm_num, zpow_natCast,
        show (-1:ℤ) - 52 = -((53:ℕ):ℤ) from by norm_num, zpow_neg, zpow_natCast]
    rw [show pyRound ((3:ℚ)/5 * 2^(53:ℕ)) = 5404319552844595 from
      pyRound_eq_of _ _ (by norm_num) (by norm_num)]
    norm_num
  have hd15 : roundDouble ((1:ℚ)/5) = 7205759403792794/36028797018963968 := by
    rw [roundDouble_eval (1/5) (-3) (by norm_num) (by norm_num) (by norm_num)]
    rw [show (52:ℤ) - (-3) = ((55:ℕ):ℤ) from by norm_num, zpow_natCast,
        show (-3:ℤ) - 52 = -((55:ℕ):ℤ) from by norm_num, zpow_neg, zpow_natCast]
    rw [show pyRound ((1:ℚ)/5 * 2^(55:ℕ)) = 7205759403792794 from
      pyRound_eq_of _ _ (by norm_num) (by norm_num)]
    norm_num
  have hsub : fsub ((5404319552844595:ℚ)/9007199254740992)
      ((7205759403792794:ℚ)/36028797018963968) =
      7205759403792793/18014398509481984 := by
    unfold fsub
    rw [show (5404319552844595:ℚ)/9007199254740992 -
        7205759403792794/36028797018963968 =
        7205759403792793/18014398509481984 from by norm_num]
    rw [roundDouble_eval _ (-2) (by norm_num) (by norm_num) (by norm_num)]
    rw [show (52:ℤ) - (-2) = ((54:ℕ):ℤ) from by norm_num, zpow_natCast,
        show (-2:ℤ) - 52 = -((54:ℕ):ℤ) from by norm_num, zpow_neg, zpow_natCast]
    rw [show pyRound ((7205759403792793:ℚ)/18014398509481984 * 2^(54:ℕ)) =
        7205759403792793 from pyRound_eq_of _ _ (by norm_num) (by norm_num)]
    norm_num
  have hratio : floatMultiRatio (parseMulti "A,B,C,F".data)
      (correctSet exQMultiF.correct)
      (optionSet exQMultiF.options \ correctSet exQMultiF.correct) =
      7205759403792793/18014398509481984 := by
    rw [hIeq, hU, hC]
    unfold floatMultiRatio
    rw [e1, e2, e3, e4]
    have hfd1 : fdiv ((3:ℕ):ℚ) ((5:ℕ):ℚ) = 5404319552844595/9007199254740992 := by
      unfold fdiv
      rw [show ((3:ℕ):ℚ) / ((5:ℕ):ℚ) = (3:ℚ)/5 from by norm_num]
      exact hd35
    have hfd2 : fdiv ((1:ℕ):ℚ) ((5:ℕ):ℚ) = 7205759403792794/36028797018963968 := by
      unfold fdiv
      rw [show ((1:ℕ):ℚ) / ((5:ℕ):ℚ) = (1:ℚ)/5 from by norm_num]
      exact hd15
    rw [if_neg (by norm_num : ¬((5:ℕ) = 0)), if_pos (by norm_num : (0:ℕ) < 5),
      hfd1, hfd2]
    dsimp only
    rw [hsub, min_eq_right (by norm_num), max_eq_right (by norm_num)]
  have hmap := mapM_normKeyMulti exQMultiF.correct (by decide)
  have hg : gradeMcqMulti exQMultiF "A,B,C,F".data =
      .ok
        { points_awarded := pyRound (fmul (floatMultiRatio (parseMulti "A,B,C,F".data)
            (correctSet exQMultiF.correct)
            (optionSet exQMultiF.options \ correctSet exQMultiF.correct))
            (roundDouble (exQMultiF.maxPts : ℚ)))
          points_possible := (exQMultiF.maxPts : ℤ)
          decision := floatThresholdDecision (floatMultiRatio (parseMulti "A,B,C,F".data)
            (correctSet exQMultiF.correct)
            (optionSet exQMultiF.options \ correctSet exQMultiF.correct))
          checks :=
            [⟨"Selected all correct options".data,
              decide ((parseMulti "A,B,C,F".data ∩ correctSet exQMultiF.correct).card =
                (correctSet exQMultiF.correct).card)⟩,
             ⟨"No incorrect options selected".data,
              decide ((parseMulti "A,B,C,F".data ∩
                (optionSet exQMultiF.options \ correctSet exQMultiF.correct)).card = 0)⟩]
          false_positive_guard := true
          false_negative_guard := true } := by
    unfold gradeMcqMulti
    rw [hmap]
  refine ⟨⟨_, hg, ?_⟩, ?_, by norm_num⟩
  · exact (floatThreshold_incorrect_iff _).mpr (by rw [hratio, d04_eq]; norm_num)
  · rw [hIeq, hU, hC]
    unfold exactMultiRatio
    rw [e1, e2, e3, e4]
    rw [if_neg (by norm_num : ¬((5:ℕ) = 0)), if_pos (by norm_num : (0:ℕ) < 5)]
    dsimp only
    rw [show ((3:ℕ):ℚ) / ((5:ℕ):ℚ) - ((1:ℕ):ℚ) / ((5:ℕ):ℚ) = 2/5 from by norm_num]
    rw [min_eq_right (by norm_num), max_eq_right (by norm_num)]

/-- C5 (amended): for a single-choice question with a nonempty,
non-degenerate correct-option list, grading normalizes the answer to the
first character of the stripped, uppercased answer string (not the first
alphabetic character), decides correct iff it is a member of the
similarly normalized correct-option list, awards full points on correct
and zero otherwise, and never gives partial credit. -/
theorem mcq_single_grading_spec (q : Question) (ua : Str)
    (hne : q.correct ≠ [])
    (hwf : ∀ c ∈ q.correct, c ≠ [] → stripWS c ≠ []) :
    ∃ g, gradeMcqSingle q ua = .ok g ∧
      g.points_possible = (q.maxPts : ℤ) ∧
      (g.decision = "correct".data ↔
        normAnswerSingle ua ∈ q.correct.map singleKeyNorm) ∧
      (g.decision = "correct".data → g.points_awarded = (q.maxPts : ℤ)) ∧
      (g.decision = "incorrect".data → g.points_awarded = 0) ∧
      (g.decision = "correct".data ∨ g.decision = "incorrect".data) := by
  have hmap := mapM_normKeySingle q.correct hwf
  unfold gradeMcqSingle
  rw [hmap]
  cases hmc : q.correct.map singleKeyNorm with
  | nil => exact absurd (List.map_eq_nil_iff.mp hmc) hne
  | cons a t =>
    dsimp only
    by_cases hmem : normAnswerSingle ua ∈ a :: t
    · have hic : (a :: t).contains (normAnswerSingle ua) = true :=
        (listContains_iff _ _).mpr hmem
      refine ⟨{ points_awarded := (q.maxPts : ℤ), points_possible := (q.maxPts : ℤ),
                decision := "correct".data,
                checks := [⟨"Selected correct option".data, true⟩],
                false_positive_guard := true, false_negative_guard := true },
        ?_, rfl, ?_, ?_, ?_, ?_⟩
      · rw [hic]; exact rfl
      · exact iff_of_true rfl hmem
      · intro _; rfl
      · intro hd
        exact absurd hd (by decide : ("correct".data : Str) ≠ "incorrect".data)
      · exact Or.inl rfl
    · have hic : (a :: t).contains (normAnswerSingle ua) = false := by
        cases hb : (a :: t).contains (normAnswerSingle ua) with
        | false => rfl
        | true => exact absurd ((listContains_iff _ _).mp hb) hmem
      refine ⟨{ points_awarded := 0, points_possible := (q.maxPts : ℤ),
                decision := "incorrect".data,
                checks := [⟨"Selected correct option".data, false⟩],
                false_positive_guard := true, false_negative_guard := true },
        ?_, rfl, ?_, ?_, ?_, ?_⟩
      · rw [hic]; exact rfl
      · exact iff_of_false (by decide : ("incorrect".data : Str) ≠ "correct".data) hmem
      · intro hd
        exact absurd hd (by decide : ("incorrect".data : Str) ≠ "correct".data)
      · intro _; rfl
      · exact Or.inr rfl

/-- Witness for C5 at the specification's worked example: correct set
{"B"}, answer "b " — graded correct with full points. -/
theorem mcq_single_grading_spec_witness :
    (exQSingle.correct ≠ [] ∧ ∀ c ∈ exQSingle.correct, c ≠ [] → stripWS c ≠ []) ∧
    ∃ g, gradeMcqSingle exQSingle "b ".data = .ok g ∧
      g.decision = "correct".data ∧ g.points_awarded = 10 := by
  refine ⟨⟨by decide, by decide⟩, ?_⟩
  obtain ⟨g, hg, hpp, hiff, hcor, hinc, hor⟩ :=
    mcq_single_grading_spec exQSingle ("b ".data) (by decide) (by decide)
  have hd : g.decision = "correct".data := hiff.mpr (by decide)
  exact ⟨g, hg, hd, (hcor hd).trans (by decide)⟩

/-- Counterexample to C5 as stated: for answer "1B" against correct set
{"B"}, the first alphabetic character uppercased is 'B' and is a member of
the claim's normalized correct-option set, yet the code normalizes to the
first character '1' and grades incorrect with zero points. -/
theorem mcq_single_grading_counterexample :
    gradeMcqSingle exQSingle "1B".data =
      .ok ⟨0, 10, "incorrect".data,
        [⟨"Selected correct option".data, false⟩], true, true⟩ ∧
    specFirstAlphaUpper "1B".data = some 'B' ∧
    (("B".data).find? Char.isAlpha).map Char.toUpper = some 'B' := by
  refine ⟨?_, by decide, by decide⟩
  decide

/-- C2 (amended): when the oracle returns a parsed verdict, any open-ended
answer whose cleaned form is shorter than 5 characters is forced to zero
points, decision incorrect, and every rubric criterion unmet, regardless
of the oracle's verdict.  (On the fallback path — oracle failure — the
guard is not applied; see the counterexample.) -/
theorem open_ended_guard_spec (q : Question) (ua : Str) (r : OracleResp)
    (h : (cleanAnswer ua).length < 5) :
    (gradeOpenEnded q ua (some r)).points_awarded = 0 ∧
    (gradeOpenEnded q ua (some r)).decision = "incorrect".data ∧
    ∀ ch ∈ (gradeOpenEnded q ua (some r)).checks, ch.met = false := by
  have hg : decide ((cleanAnswer ua).length < 5) = true := decide_eq_true h
  unfold gradeOpenEnded
  dsimp only
  rw [hg]
  refine ⟨rfl, rfl, ?_⟩
  intro ch hch
  obtain ⟨c, hc, rfl⟩ := List.mem_map.mp hch
  show decide ((7:ℚ)/10 ≤ (0:ℚ)) = false
  rw [decide_eq_false]
  norm_num

/-- Witness for C2 (amended): the two-character answer "hi" against a
successful oracle verdict of full marks is still forced to zero. -/
theorem open_ended_guard_spec_witness :
    (cleanAnswer "hi".data).length < 5 ∧
    ((gradeOpenEnded exQOpen "hi".data (some ⟨true, 1, "exact".data⟩)).points_awarded = 0 ∧
     (gradeOpenEnded exQOpen "hi".data (some ⟨true, 1, "exact".data⟩)).decision = "incorrect".data ∧
     ∀ ch ∈ (gradeOpenEnded exQOpen "hi".data (some ⟨true, 1, "exact".data⟩)).checks,
       ch.met = false) :=
  ⟨by decide, open_ended_guard_spec exQOpen "hi".data ⟨true, 1, "exact".data⟩ (by decide)⟩

/-- Counterexample to C2 as stated: the answer "ok!!!" strips to "ok"
(2 characters, under the 5-character guard threshold), yet when the oracle
fails and the keyword fallback grades it against canonical answer "ok!!!",
it is scored correct with 10 points — the fallback path never applies the
guard. -/
theorem open_ended_guard_counterexample :
    cleanAnswer "ok!!!".data = "ok".data ∧
    (gradeOpenEnded exQOpen "ok!!!".data none).points_awarded = 10 ∧
    (gradeOpenEnded exQOpen "ok!!!".data none).decision = "correct".data := by
  have hr : fallbackRatio exQOpen.canonical "ok!!!".data = 1 := by
    have h1 : keyTerms exQOpen.canonical = ["ok!!!".data] := by decide
    have h2 : List.filter (fun t => hasSub (lowerL "ok!!!".data) t)
        ["ok!!!".data] = ["ok!!!".data] := by decide
    show (if keyTerms exQOpen.canonical = [] then (0:ℚ)
      else ((List.filter (fun t => hasSub (lowerL "ok!!!".data) t)
          (keyTerms exQOpen.canonical)).length : ℚ) /
        ((keyTerms exQOpen.canonical).length : ℚ)) = 1
    rw [h1, h2, if_neg (by decide)]
    simp
  refine ⟨by decide, ?_, ?_⟩
  · show (fallbackGrading exQOpen "ok!!!".data).points_awarded = 10
    unfold fallbackGrading
    dsimp only
    rw [hr]
    norm_num [pyTrunc]
  · show (fallbackGrading exQOpen "ok!!!".data).decision = "correct".data
    unfold fallbackGrading
    dsimp only
    rw [hr]
    exact (threshold_correct_iff 1).mpr (by norm_num)

/-- C10: whenever the oracle call fails, errors, or returns an unparseable
result (modelled as `none`), open-ended grading is the keyword fallback:
key terms are the words of the lowercased canonical answer longer than 4
characters, the matched fraction decides correct/partial/incorrect at the
0.9/0.4 thresholds, and both guard flags are reported false. -/
theorem fallback_grading_spec (q : Question) (ua : Str) :
    gradeOpenEnded q ua none = fallbackGrading q ua ∧
    (q.qtype ≠ "mcq_single".data → q.qtype ≠ "mcq_multi".data →
      gradeQuestion q ua none = .ok (fallbackGrading q ua)) ∧
    (fallbackGrading q ua).false_positive_guard = false ∧
    (fallbackGrading q ua).false_negative_guard = false ∧
    keyTerms q.canonical = (wordsOf (lowerL q.canonical)).filter (fun w => 4 < w.length) ∧
    ((fallbackGrading q ua).decision = "correct".data ↔
      9/10 ≤ fallbackRatio q.canonical ua) ∧
    ((fallbackGrading q ua).decision = "partially_correct".data ↔
      2/5 ≤ fallbackRatio q.canonical ua ∧ fallbackRatio q.canonical ua < 9/10) ∧
    ((fallbackGrading q ua).decision = "incorrect".data ↔
      fallbackRatio q.canonical ua < 2/5) := by
  refine ⟨rfl, ?_, rfl, rfl, rfl, ?_, ?_, ?_⟩
  · intro h1 h2
    unfold gradeQuestion
    rw [if_neg h1, if_neg h2]
    rfl
  · exact threshold_correct_iff _
  · exact threshold_partial_iff _
  · exact threshold_incorrect_iff _

/-- Witness for C10: an open-ended question dispatches to the fallback on
oracle failure, with both guard flags false. -/
theorem fallback_grading_spec_witness :
    (exQOpen.qtype ≠ "mcq_single".data ∧ exQOpen.qtype ≠ "mcq_multi".data) ∧
    gradeQuestion exQOpen "ok".data none = .ok (fallbackGrading exQOpen "ok".data) ∧
    (fallbackGrading exQOpen "ok".data).false_positive_guard = false := by
  refine ⟨⟨by decide, by decide⟩, ?_, rfl⟩
  exact (fallback_grading_spec exQOpen "ok".data).2.1 (by decide) (by decide)

/-- C3: for a nonempty concept list, the synthesized rubric gives each
concept criterion `(7·mp/10) / n` points (70% of the max points under
integer arithmetic, split evenly, remainders dropped), puts all remaining
points on the one trailing completeness-and-accuracy criterion, and the
criterion points sum to the max points exactly. -/
theorem conceptPoints_ten : conceptPoints 10 = 7 := by
  unfold conceptPoints
  rw [show roundDouble ((10:ℕ):ℚ) = ((10:ℕ):ℚ) from roundDouble_natCast 10 (by norm_num)]
  have hfm : fmul ((10:ℕ):ℚ) c07 = 7 := by
    unfold fmul
    rw [c07_eq]
    rw [show ((10:ℕ):ℚ) * (6305039478318694 / 9007199254740992) =
        15762598695796735/2251799813685248 from by norm_num]
    rw [roundDouble_eval _ 2 (by norm_num) (by norm_num) (by norm_num)]
    rw [show (52:ℤ) - 2 = ((50:ℕ):ℤ) from by norm_num, zpow_natCast,
        show (2:ℤ) - 52 = -((50:ℕ):ℤ) from by norm_num, zpow_neg, zpow_natCast]
    rw [show pyRound ((15762598695796735:ℚ)/2251799813685248 * 2^(50:ℕ)) =
        7881299347898368 from
      (pyRound_tie_odd _ 7881299347898367 (by norm_num) (by norm_num)).trans
        (by norm_num)]
    norm_num
  rw [hfm, pyTrunc_eq_floor,
    show ((7:ℚ)) = ((7:ℤ):ℚ) from by norm_num, Int.floor_intCast]
  rfl

theorem conceptPoints_ninety : conceptPoints 90 = 62 := by
  unfold conceptPoints
  rw [show roundDouble ((90:ℕ):ℚ) = ((90:ℕ):ℚ) from roundDouble_natCast 90 (by norm_num)]
  have hfm : fmul ((90:ℕ):ℚ) c07 = 8866461766385663/140737488355328 := by
    unfold fmul
    rw [c07_eq]
    rw [show ((90:ℕ):ℚ) * (6305039478318694 / 9007199254740992) =
        141863388262170615/2251799813685248 from by norm_num]
    rw [roundDouble_eval _ 5 (by norm_num) (by norm_num) (by norm_num)]
    rw [show (52:ℤ) - 5 = ((47:ℕ):ℤ) from by norm_num, zpow_natCast,
        show (5:ℤ) - 52 = -((47:ℕ):ℤ) from by norm_num, zpow_neg, zpow_natCast]
    rw [show pyRound ((141863388262170615:ℚ)/2251799813685248 * 2^(47:ℕ)) =
        8866461766385663 from pyRound_eq_of _ _ (by norm_num) (by norm_num)]
    norm_num
  rw [hfm, pyTrunc_eq_floor,
    show ⌊(8866461766385663:ℚ)/140737488355328⌋ = 62 from
      Int.floor_eq_iff.mpr ⟨by norm_num, by norm_num⟩]
  rfl

theorem rubric_points_sum (mp : ℕ) (concepts : List Str) :
    ((concepts.map (fun c =>
      (⟨"Correctly explains/uses concept: ".data ++ c,
        conceptPoints mp / concepts.length⟩ : Criterion))).map Criterion.points).sum =
      concepts.length * (conceptPoints mp / concepts.length) := by
  rw [List.map_map]
  have hc : (Criterion.points ∘ fun c =>
      (⟨"Correctly explains/uses concept: ".data ++ c,
        conceptPoints mp / concepts.length⟩ : Criterion)) =
      fun _ => conceptPoints mp / concepts.length := rfl
  rw [hc, List.map_const', List.sum_replicate, smul_eq_mul]

theorem generateRubric_form (topic : Str) (mp : ℕ) (concepts : List Str)
    (h : concepts ≠ []) :
    generateRubric topic mp concepts =
      concepts.map (fun c =>
        (⟨"Correctly explains/uses concept: ".data ++ c,
          conceptPoints mp / concepts.length⟩ : Criterion)) ++
      [⟨"Answer is complete, accurate, and follows reasoning from notes".data,
        mp - concepts.length * (conceptPoints mp / concepts.length)⟩] := by
  unfold generateRubric
  dsimp only
  rw [if_neg h, rubric_points_sum]

/-- C3 (amended): for every max-points value `mp` and nonempty concept
list, the rubric gives each concept criterion
`int(mp * 0.7) / len(concepts)` points, where `int(mp * 0.7)` is computed
in IEEE double arithmetic and so can land one below the exact 70% integer
split (`62` instead of `63` at `mp = 90`); the trailing
completeness-and-accuracy criterion absorbs everything left, and the sum
of all criterion points equals `mp` exactly. -/
theorem rubric_spec (topic : Str) (mp : ℕ) (concepts : List Str)
    (h : concepts ≠ []) :
    (∀ c ∈ (generateRubric topic mp concepts).dropLast,
        c.points = conceptPoints mp / concepts.length) ∧
    (generateRubric topic mp concepts).length = concepts.length + 1 ∧
    (generateRubric topic mp concepts).getLast? =
      some ⟨"Answer is complete, accurate, and follows reasoning from notes".data,
        mp - concepts.length * (conceptPoints mp / concepts.length)⟩ ∧
    ((generateRubric topic mp concepts).map Criterion.points).sum = mp := by
  have hsum := rubric_points_sum mp concepts
  have hform := generateRubric_form topic mp concepts h
  have hle1 : concepts.length * (conceptPoints mp / concepts.length) ≤
      conceptPoints mp := by
    rw [mul_comm]
    exact Nat.div_mul_le_self _ _
  have hle2 : conceptPoints mp ≤ mp := conceptPoints_le mp
  refine ⟨?_, ?_, ?_, ?_⟩
  · rw [hform, List.dropLast_concat]
    intro c hc
    obtain ⟨x, hx, rfl⟩ := List.mem_map.mp hc
    rfl
  · rw [hform]
    simp
  · rw [hform, List.getLast?_concat]
  · rw [hform, List.map_append, List.sum_append, hsum]
    simp only [List.map_cons, List.map_nil, List.sum_cons, List.sum_nil]
    omega

/-- Witness for C3 at max points 10 and three concepts:
`int(10 * 0.7) = 7` (the product rounds up to exactly `7.0`), so the
criteria get 2, 2, 2 and 4 points, summing to 10. -/
theorem rubric_spec_witness :
    (["a".data, "b".data, "c".data] ≠ ([] : List Str)) ∧
    ((generateRubric "t".data 10 ["a".data, "b".data, "c".data]).map
      Criterion.points).sum = 10 ∧
    ∀ c ∈ (generateRubric "t".data 10 ["a".data, "b".data, "c".data]).dropLast,
      c.points = 2 := by
  have h := rubric_spec "t".data 10 ["a".data, "b".data, "c".data] (by decide)
  refine ⟨by decide, h.2.2.2, ?_⟩
  intro c hc
  exact (h.1 c hc).trans (by rw [conceptPoints_ten]; decide)

/-- Counterexample to C3 as stated: at `mp = 90` with one concept, the
code's `int(90 * 0.7)` is `62` — the double product is
`62.99999999999999289`, just below `63` — not the claim's exact 70%
integer split `7 * 90 / 10 = 63`: the concept criterion gets 62 points
and the trailing criterion 28. -/
theorem rubric_float_counterexample :
    ((generateRubric "t".data 90 ["a".data]).map Criterion.points) = [62, 28] ∧
    7 * 90 / 10 = 63 ∧ (62 : ℕ) ≠ 63 := by
  refine ⟨?_, by norm_num, by norm_num⟩
  rw [generateRubric_form "t".data 90 ["a".data] (by decide)]
  rw [show conceptPoints 90 = 62 from conceptPoints_ninety]
  decide

theorem isValid_not_seen (q : Question) (seen : List Str)
    (hv : isValidQuestion q seen = true) :
    normPrompt q.prompt ∉ seen := by
  unfold isValidQuestion at hv
  by_cases h1 : normPrompt q.prompt = []
  · rw [if_pos h1] at hv
    exact absurd hv (by decide)
  · rw [if_neg h1] at hv
    by_cases h2 : seen.contains (normPrompt q.prompt) = true
    · rw [if_pos h2] at hv
      exact absurd hv (by decide)
    · intro hmem
      exact h2 ((listContains_iff _ _).mpr hmem)

theorem runGenAux_pairwise (limit : ℕ) (cands : List (Option Question))
    (acc : List Question)
    (hacc : acc.Pairwise (fun a b => normPrompt a.prompt ≠ normPrompt b.prompt)) :
    (runGenAux limit cands acc).Pairwise
      (fun a b => normPrompt a.prompt ≠ normPrompt b.prompt) := by
  induction cands generalizing acc with
  | nil =>
    show (acc.reverse).Pairwise _
    exact List.pairwise_reverse.mpr (hacc.imp fun h => Ne.symm h)
  | cons c cs ih =>
    unfold runGenAux
    by_cases hl : limit ≤ acc.length
    · rw [if_pos hl]
      exact List.pairwise_reverse.mpr (hacc.imp fun h => Ne.symm h)
    · rw [if_neg hl]
      cases c with
      | none => exact ih acc hacc
      | some q =>
        dsimp only
        by_cases hv : isValidQuestion q (acc.map fun a => normPrompt a.prompt) = true
        · rw [if_pos hv]
          refine ih (q :: acc) (List.Pairwise.cons ?_ hacc)
          intro a ha heq
          exact isValid_not_seen q _ hv
            (by rw [heq]; exact List.mem_map_of_mem _ ha)
        · rw [if_neg hv]
          exact ih acc hacc

/-- C4 (amended): within one generation run — the batch accept loop of
`generate_questions`, for any candidate stream and requested count — no
two accepted questions have prompts that are identical after lowercasing
and whitespace-trimming.  (The lazy driver starts a fresh run with a fresh
seen-set per question, so cross-question dedup is not enforced there; see
the counterexample.) -/
theorem generation_dedup_spec (limit : ℕ) (cands : List (Option Question)) :
    (runGen limit cands).Pairwise
      (fun a b => normPrompt a.prompt ≠ normPrompt b.prompt) :=
  runGenAux_pairwise limit cands [] List.Pairwise.nil

/-- Counterexample to C4 as stated: a lazily driven session whose oracle
returns the same candidate twice accepts two questions with identical
normalized prompts, because each `_generate_next_question` call runs
`generate_questions` with a fresh, empty seen-set. -/
theorem generation_dedup_counterexample :
    (runSess [.genQuiz 2 [some exQGen], .advance [some exQGen]]).generated.map
        (fun q => normPrompt q.prompt) =
      ["what is tokenization".data, "what is tokenization".data] ∧
    (runSess [.genQuiz 2 [some exQGen], .advance [some exQGen]]).generated.map
        Question.id = ["q1".data, "q2".data] := by
  constructor
  · decide
  · decide

theorem gradeMcqSingle_ok (q : Question) (ua : Str) (hne : q.correct ≠ [])
    (hwf : ∀ c ∈ q.correct, c ≠ [] → stripWS c ≠ []) :
    ∃ g, gradeMcqSingle q ua = .ok g := by
  have hmap := mapM_normKeySingle q.correct hwf
  unfold gradeMcqSingle
  rw [hmap]
  cases hmc : q.correct.map singleKeyNorm with
  | nil => exact absurd (List.map_eq_nil_iff.mp hmc) hne
  | cons a t => exact ⟨_, rfl⟩

theorem gradeMcqMulti_ok (q : Question) (ua : Str)
    (hwf : ∀ c ∈ q.correct, c ≠ [] → stripWS c ≠ []) :
    ∃ g, gradeMcqMulti q ua = .ok g := by
  have hmap := mapM_normKeyMulti q.correct hwf
  unfold gradeMcqMulti
  rw [hmap]
  exact ⟨_, rfl⟩

theorem gradeQuestion_total (q : Question) (ua : Str) (orc : Option OracleResp)
    (hwf : WellFormedKey q) :
    ∃ g, gradeQuestion q ua orc = .ok g := by
  unfold gradeQuestion
  by_cases h1 : q.qtype = "mcq_single".data
  · rw [if_pos h1]
    obtain ⟨hne, hw⟩ := hwf.1 h1
    exact gradeMcqSingle_ok q ua hne hw
  · rw [if_neg h1]
    by_cases h2 : q.qtype = "mcq_multi".data
    · rw [if_pos h2]
      exact gradeMcqMulti_ok q ua (hwf.2 h2)
    · rw [if_neg h2]
      exact ⟨_, rfl⟩

/-- C6 (amended): with no active quiz, grading returns the typed
`no_active_quiz` error with the session state unchanged; with an active
quiz and an unknown question ID, the typed `question_not_found` error with
the state unchanged; and for any question found in the quiz's question
list whose answer key is well-formed (for the deterministic choice
graders: no degenerate correct-option entries, and a nonempty correct
list for single choice), grading returns some Grading.  (A question with
an empty single-choice correct list makes the grader raise; see the
counterexample.) -/
theorem grade_answer_error_spec (s : SessState) (qid ans : Str)
    (orc : Option OracleResp) :
    (s.quiz = none → gradeAnswerSess s qid ans orc = (.noActiveQuiz, s)) ∧
    (∀ qs, s.quiz = some qs →
      (qs.find? (fun q => q.id == qid) = none →
        gradeAnswerSess s qid ans orc = (.questionNotFound, s)) ∧
      ∀ q, qs.find? (fun q => q.id == qid) = some q → WellFormedKey q →
        ∃ g, (gradeAnswerSess s qid ans orc).1 = .graded g) := by
  constructor
  · intro h
    unfold gradeAnswerSess
    rw [h]
  · intro qs hq
    constructor
    · intro hf
      unfold gradeAnswerSess
      rw [hq]
      dsimp only
      rw [hf]
    · intro q hf hwf
      obtain ⟨g, hg⟩ := gradeQuestion_total q ans orc hwf
      refine ⟨g, ?_⟩
      unfold gradeAnswerSess
      rw [hq]
      dsimp only
      rw [hf]
      dsimp only
      rw [hg]
      dsimp only
      by_cases ht : s.tracking = true
      · rw [if_pos ht]
      · rw [if_neg ht]

/-- Witness for C6: a session with one well-formed single-choice question
grades any answer to some Grading. -/
theorem grade_answer_error_spec_witness :
    (exGoodState.quiz = some [exQSingle] ∧ WellFormedKey exQSingle) ∧
    ∃ g, (gradeAnswerSess exGoodState "q1".data "B".data none).1 = .graded g := by
  refine ⟨⟨rfl, by constructor <;> intro h <;> exact (by decide)⟩, ?_⟩
  exact ((grade_answer_error_spec exGoodState "q1".data "B".data none).2
    [exQSingle] rfl).2 exQSingle (by decide)
    (by constructor <;> intro h <;> exact (by decide))

/-- Counterexample to C6 as stated: a single-choice question with an empty
correct-option list sits in the session's question list, and grading it
raises `IndexError` (propagated, not a Grading) — though the state is
still unchanged. -/
theorem grade_answer_raises_counterexample :
    (gradeAnswerSess exBadState "q1".data "A".data none).1 = .raised .indexError ∧
    (gradeAnswerSess exBadState "q1".data "A".data none).2 = exBadState := by
  constructor
  · decide
  · decide

theorem gradeAnswerSess_preserves (s : SessState) (qid ans : Str)
    (orc : Option OracleResp) :
    (gradeAnswerSess s qid ans orc).2.generated = s.generated ∧
    (gradeAnswerSess s qid ans orc).2.total = s.total ∧
    (gradeAnswerSess s qid ans orc).2.idx = s.idx := by
  unfold gradeAnswerSess
  cases hq : s.quiz with
  | none => exact ⟨rfl, rfl, rfl⟩
  | some qs =>
    dsimp only
    cases hf : qs.find? (fun q => q.id == qid) with
    | none => exact ⟨rfl, rfl, rfl⟩
    | some q =>
      dsimp only
      cases hg : gradeQuestion q ans orc with
      | error e => exact ⟨rfl, rfl, rfl⟩
      | ok g =>
        dsimp only
        by_cases ht : s.tracking = true
        · rw [if_pos ht]
          exact ⟨rfl, rfl, rfl⟩
        · rw [if_neg ht]
          exact ⟨rfl, rfl, rfl⟩

theorem stepSess_genbound (s : SessState) (a : SessAct)
    (h : s.generated.length ≤ max 1 s.total) :
    (stepSess s a).generated.length ≤ max 1 (stepSess s a).total := by
  cases a with
  | genQuiz n cands =>
    unfold stepSess
    dsimp only
    cases hq : nextQuestionGen 0 cands with
    | some q =>
      dsimp only
      exact le_max_left 1 n
    | none =>
      dsimp only
      exact le_trans (Nat.zero_le 1) (le_max_left 1 n)
  | advance cands =>
    unfold stepSess
    dsimp only
    by_cases h1 : s.quiz = none ∨ s.hasRequest = false
    · rw [if_pos h1]
      exact h
    · rw [if_neg h1]
      by_cases h2 : s.generated.length ≤ s.idx + 1
      · rw [if_pos h2]
        by_cases h3 : s.generated.length < s.total
        · rw [if_pos h3]
          cases hng : nextQuestionGen s.generated.length cands with
          | some q =>
            dsimp only
            rw [List.length_append]
            have : s.generated.length + 1 ≤ s.total := h3
            exact le_trans this (le_max_right 1 s.total)
          | none => exact h
        · rw [if_neg h3]
          exact h
      · rw [if_neg h2]
        exact h
  | grade qid ans orc =>
    have hp := gradeAnswerSess_preserves s qid ans orc
    show (gradeAnswerSess s qid ans orc).2.generated.length ≤
      max 1 (gradeAnswerSess s qid ans orc).2.total
    rw [hp.1, hp.2.1]
    exact h

theorem runSess_genbound (acts : List SessAct) :
    (runSess acts).generated.length ≤ max 1 (runSess acts).total := by
  suffices h : ∀ s : SessState, s.generated.length ≤ max 1 s.total →
      (acts.foldl stepSess s).generated.length ≤
        max 1 (acts.foldl stepSess s).total by
    exact h initSess (by norm_num [initSess])
  induction acts with
  | nil => intro s h; exact h
  | cons a as ih =>
    intro s h
    exact ih _ (stepSess_genbound s a h)

theorem stepSess_advance_lazy (s : SessState) (cands : List (Option Question)) :
    (stepSess s (.advance cands)).generated.length ≤ s.generated.length + 1 ∧
    ((stepSess s (.advance cands)).generated.length = s.generated.length + 1 →
      s.generated.length ≤ s.idx + 1 ∧ s.generated.length < s.total) := by
  unfold stepSess
  dsimp only
  by_cases h1 : s.quiz = none ∨ s.hasRequest = false
  · rw [if_pos h1]
    exact ⟨Nat.le_succ _, fun he => by simp at he⟩
  · rw [if_neg h1]
    by_cases h2 : s.generated.length ≤ s.idx + 1
    · rw [if_pos h2]
      by_cases h3 : s.generated.length < s.total
      · rw [if_pos h3]
        cases hng : nextQuestionGen s.generated.length cands with
        | some q =>
          dsimp only
          rw [List.length_append]
          exact ⟨le_refl _, fun _ => ⟨h2, h3⟩⟩
        | none => exact ⟨Nat.le_succ _, fun he => by simp at he⟩
      · rw [if_neg h3]
        exact ⟨Nat.le_succ _, fun he => by simp at he⟩
    · rw [if_neg h2]
      exact ⟨Nat.le_succ _, fun he => by simp at he⟩

/-- C7 (amended): in every reachable session state the number of
materialized questions never exceeds `max(1, requested total)` (the first
question is generated eagerly even when 0 are requested); each advance
materializes at most one question, and does so only when the cursor has
moved past the materialized list while the requested total is not yet
reached — i.e. a question is only materialized when first requested.
(The cursor itself increments on every advance, even when nothing is
materialized, so `cursor ≤ generated` is not invariant; see the
counterexample.) -/
theorem session_cursor_spec (acts : List SessAct) (cands : List (Option Question)) :
    (runSess acts).generated.length ≤ max 1 (runSess acts).total ∧
    (stepSess (runSess acts) (.advance cands)).generated.length ≤
      (runSess acts).generated.length + 1 ∧
    ((stepSess (runSess acts) (.advance cands)).generated.length =
        (runSess acts).generated.length + 1 →
      (runSess acts).generated.length ≤ (runSess acts).idx + 1 ∧
      (runSess acts).generated.length < (runSess acts).total) := by
  exact ⟨runSess_genbound acts, (stepSess_advance_lazy (runSess acts) cands).1,
    (stepSess_advance_lazy (runSess acts) cands).2⟩

/-- Witness for C7: after generating a two-question quiz, the first
advance materializes exactly one new question, and the laziness
implication fires: the cursor had reached the materialized list and the
requested total was not yet reached. -/
theorem session_cursor_spec_witness :
    ((stepSess (runSess [.genQuiz 2 [some exQGen]]) (.advance [some exQGen])).generated.length =
      (runSess [.genQuiz 2 [some exQGen]]).generated.length + 1) ∧
    ((runSess [.genQuiz 2 [some exQGen]]).generated.length ≤
        (runSess [.genQuiz 2 [some exQGen]]).idx + 1 ∧
      (runSess [.genQuiz 2 [some exQGen]]).generated.length <
        (runSess [.genQuiz 2 [some exQGen]]).total) := by
  refine ⟨by decide, ?_⟩
  exact (session_cursor_spec [.genQuiz 2 [some exQGen]] [some exQGen]).2.2 (by decide)

/-- Counterexample to C7 as stated: generate a one-question quiz and
advance twice; the cursor reaches 2 while only 1 question was generated,
violating `cursor ≤ generated questions`. -/
theorem session_cursor_counterexample :
    (runSess [.genQuiz 1 [some exQGen], .advance [], .advance []]).idx = 2 ∧
    (runSess [.genQuiz 1 [some exQGen], .advance [], .advance []]).generated.length = 1 ∧
    (runSess [.genQuiz 1 [some exQGen], .advance [], .advance []]).total = 1 := by
  refine ⟨?_, ?_, ?_⟩ <;> decide

theorem mem_insDesc (x a : SRes) (l : List SRes) :
    a ∈ insDesc x l ↔ a = x ∨ a ∈ l := by
  induction l with
  | nil => simp [insDesc]
  | cons y ys ih =>
    unfold insDesc
    by_cases h : y.score ≤ x.score
    · rw [if_pos h]
      simp [List.mem_cons]
    · rw [if_neg h]
      simp [List.mem_cons, ih]
      tauto

theorem length_insDesc (x : SRes) (l : List SRes) :
    (insDesc x l).length = l.length + 1 := by
  induction l with
  | nil => rfl
  | cons y ys ih =>
    unfold insDesc
    by_cases h : y.score ≤ x.score
    · rw [if_pos h]
      rfl
    · rw [if_neg h]
      simp [ih]

theorem mem_sortDesc (a : SRes) (l : List SRes) : a ∈ sortDesc l ↔ a ∈ l := by
  induction l with
  | nil => simp [sortDesc]
  | cons x xs ih =>
    unfold sortDesc
    rw [mem_insDesc]
    simp [ih]

theorem length_sortDesc (l : List SRes) : (sortDesc l).length = l.length := by
  induction l with
  | nil => rfl
  | cons x xs ih =>
    unfold sortDesc
    rw [length_insDesc, ih]
    rfl

theorem insDesc_pairwise (x : SRes) (l : List SRes)
    (hl : l.Pairwise fun a b => b.score < a.score ∨ (a.score = b.score ∧ a.page < b.page))
    (hx : ∀ y ∈ l, x.page < y.page) :
    (insDesc x l).Pairwise
      (fun a b => b.score < a.score ∨ (a.score = b.score ∧ a.page < b.page)) := by
  induction l with
  | nil => simp [insDesc]
  | cons y ys ih =>
    unfold insDesc
    have hcons := List.pairwise_cons.mp hl
    by_cases h : y.score ≤ x.score
    · rw [if_pos h]
      refine List.Pairwise.cons ?_ hl
      intro z hz
      have hzs : z.score ≤ y.score := by
        rcases List.mem_cons.mp hz with rfl | hz2
        · exact le_refl _
        · rcases hcons.1 z hz2 with h2 | h2
          · exact le_of_lt h2
          · exact le_of_eq h2.1.symm
      rcases lt_or_eq_of_le (le_trans hzs h) with hlt | heq
      · exact Or.inl hlt
      · exact Or.inr ⟨heq.symm, hx z hz⟩
    · rw [if_neg h]
      refine List.Pairwise.cons ?_
        (ih hcons.2 fun y2 hy2 => hx y2 (List.mem_cons_of_mem _ hy2))
      intro z hz
      rcases (mem_insDesc x z ys).mp hz with rfl | hz2
      · exact Or.inl (not_le.mp h)
      · exact hcons.1 z hz2

theorem sortDesc_pairwise (l : List SRes)
    (hl : l.Pairwise fun a b => a.page < b.page) :
    (sortDesc l).Pairwise
      (fun a b => b.score < a.score ∨ (a.score = b.score ∧ a.page < b.page)) := by
  induction l with
  | nil => simp [sortDesc]
  | cons x xs ih =>
    unfold sortDesc
    have hcons := List.pairwise_cons.mp hl
    refine insDesc_pairwise x _ (ih hcons.2) ?_
    intro y hy
    exact hcons.1 y ((mem_sortDesc y xs).mp hy)

theorem pageResult_some (path query : Str) (pr : ℕ × Str) (r : SRes)
    (h : pageResult path query pr = some r) :
    r.page = pr.1 ∧ r.text = pr.2 ∧ r.score = multCount query pr.2 ∧
    0 < r.score ∧ r.excerpt = excerptOf query pr.2 ∧ r.path = path := by
  unfold pageResult at h
  by_cases hs : 0 < multCount query pr.2
  · rw [if_pos hs] at h
    cases h
    exact ⟨rfl, rfl, rfl, hs, rfl, rfl⟩
  · rw [if_neg hs] at h
    exact absurd h (by simp)

theorem pageResult_pos (path query : Str) (pr : ℕ × Str)
    (h : 0 < multCount query pr.2) :
    pageResult path query pr =
      some ⟨pr.1, pr.2, excerptOf query pr.2, multCount query pr.2, path⟩ := by
  unfold pageResult
  rw [if_pos h]

theorem candidates_pairwise (path query : Str) (pages : List (ℕ × Str))
    (hp : pages.Pairwise fun a b => a.1 < b.1) :
    (pages.filterMap (pageResult path query)).Pairwise
      (fun a b => a.page < b.page) := by
  induction pages with
  | nil => simp
  | cons p ps ih =>
    rw [List.filterMap_cons]
    have hcons := List.pairwise_cons.mp hp
    cases hr : pageResult path query p with
    | none => exact ih hcons.2
    | some r =>
      refine List.Pairwise.cons ?_ (ih hcons.2)
      intro b hb
      obtain ⟨pb, hpb, hpbr⟩ := List.mem_filterMap.mp hb
      rw [(pageResult_some _ _ _ _ hr).1, (pageResult_some _ _ _ _ hpbr).1]
      exact hcons.1 pb hpb

/-- C8 (amended): search scores each page by the number of entries of the
whitespace-split lowercased query occurring as substrings of the page
(a repeated query token counts once per occurrence in the token list, not
once per distinct token); zero-scoring pages are excluded; results come
back score-descending with ties in original page order, at most
`maxResults` of them, and each carries the `±150`-character excerpt around
the first occurrence of the first matching token. -/
theorem search_content_spec (path query : Str) (pages : List (ℕ × Str)) (mr : ℕ)
    (hp : pages.Pairwise fun a b => a.1 < b.1) :
    (searchContent path pages query mr).length ≤ mr ∧
    (∀ r ∈ searchContent path pages query mr,
      (r.page, r.text) ∈ pages ∧ r.score = multCount query r.text ∧
      0 < r.score ∧ r.excerpt = excerptOf query r.text ∧ r.path = path) ∧
    (searchContent path pages query mr).Pairwise
      (fun a b => b.score < a.score ∨ (a.score = b.score ∧ a.page < b.page)) ∧
    (pages.length ≤ mr → ∀ p ∈ pages, 0 < multCount query p.2 →
      ∃ r ∈ searchContent path pages query mr,
        r.page = p.1 ∧ r.score = multCount query p.2) := by
  refine ⟨List.length_take_le mr _, ?_, ?_, ?_⟩
  · intro r hr
    have hr1 : r ∈ sortDesc (pages.filterMap (pageResult path query)) :=
      List.mem_of_mem_take hr
    have hr2 : r ∈ pages.filterMap (pageResult path query) :=
      (mem_sortDesc _ _).mp hr1
    obtain ⟨p, hpm, hpr⟩ := List.mem_filterMap.mp hr2
    obtain ⟨h1, h2, h3, h4, h5, h6⟩ := pageResult_some _ _ _ _ hpr
    refine ⟨?_, ?_, h4, ?_, h6⟩
    · rw [h1, h2]
      exact hpm
    · rw [h2]
      exact h3
    · rw [h2]
      exact h5
  · exact (sortDesc_pairwise _ (candidates_pairwise path query pages hp)).sublist
      (List.take_sublist mr _)
  · intro hmr p hpm hpos
    have hcand := pageResult_pos path query p hpos
    have hmem : (⟨p.1, p.2, excerptOf query p.2, multCount query p.2, path⟩ : SRes) ∈
        pages.filterMap (pageResult path query) :=
      List.mem_filterMap.mpr ⟨p, hpm, hcand⟩
    have hmem2 := (mem_sortDesc _ (pages.filterMap (pageResult path query))).mpr hmem
    have hlen : (sortDesc (pages.filterMap (pageResult path query))).length ≤ mr := by
      rw [length_sortDesc]
      exact le_trans (List.length_filterMap_le _ _) hmr
    refine ⟨⟨p.1, p.2, excerptOf query p.2, multCount query p.2, path⟩, ?_, rfl, rfl⟩
    show _ ∈ (sortDesc (pages.filterMap (pageResult path query))).take mr
    rw [List.take_of_length_le hlen]
    exact hmem2

/-- Witness for C8 at the specification's example: a page containing
"tokenization" scores positively for the query "Tokenization" and is
returned. -/
theorem search_content_spec_witness :
    (([((1:ℕ), "xx tokenization yy".data), (2, "zz".data)] :
        List (ℕ × Str)).Pairwise fun a b => a.1 < b.1) ∧
    0 < multCount "Tokenization".data "xx tokenization yy".data ∧
    ∃ r ∈ searchContent "p".data
        [((1:ℕ), "xx tokenization yy".data), (2, "zz".data)] "Tokenization".data 5,
      r.page = 1 ∧ r.score = multCount "Tokenization".data "xx tokenization yy".data := by
  refine ⟨by decide, by decide, ?_⟩
  exact (search_content_spec "p".data "Tokenization".data
      [((1:ℕ), "xx tokenization yy".data), (2, "zz".data)] 5 (by decide)).2.2.2
    (by decide) ((1:ℕ), "xx tokenization yy".data) (by decide) (by decide)

/-- Counterexample to C8 as stated: the query "aa aa" against a page "aa"
is scored 2 by the code (one count per token-list entry) although it has
only one distinct token, whose distinct-token score is 1. -/
theorem search_distinct_counterexample :
    searchContent "p".data [((1:ℕ), "aa".data)] "aa aa".data 5 =
      [⟨1, "aa".data, "aa".data, 2, "p".data⟩] ∧
    specDistinctScore "aa aa".data "aa".data = 1 := by
  constructor
  · decide
  · decide

theorem splitWSAux_nonws : ∀ (w : Str), (∀ c ∈ w, c.isWhitespace = false) →
    ∀ (cur x : Str), splitWSAux cur (w ++ x) = splitWSAux (w.reverse ++ cur) x := by
  intro w
  induction w with
  | nil => intro _ cur x; rfl
  | cons c w2 ih =>
    intro hw cur x
    have hc : c.isWhitespace = false := hw c (List.mem_cons_self _ _)
    have hw2 : ∀ d ∈ w2, d.isWhitespace = false :=
      fun d hd => hw d (List.mem_cons_of_mem _ hd)
    simp only [List.cons_append, splitWSAux, hc, Bool.false_eq_true, if_false,
      List.append_eq]
    rw [ih hw2 (c :: cur) x]
    congr 1
    simp [List.append_assoc]

theorem splitWSAux_allws : ∀ (t : Str), (∀ c ∈ t, c.isWhitespace = true) →
    ∀ cur, splitWSAux cur t = if cur = [] then [] else [cur.reverse] := by
  intro t
  induction t with
  | nil => intro _ cur; rfl
  | cons c t2 ih =>
    intro ht cur
    have hc : c.isWhitespace = true := ht c (List.mem_cons_self _ _)
    have ht2 : ∀ d ∈ t2, d.isWhitespace = true :=
      fun d hd => ht d (List.mem_cons_of_mem _ hd)
    simp only [splitWSAux, hc, if_true]
    rw [ih ht2 []]
    simp

theorem splitWSAux_trailing : ∀ (x t : Str), (∀ c ∈ t, c.isWhitespace = true) →
    ∀ cur, splitWSAux cur (x ++ t) = splitWSAux cur x := by
  intro x
  induction x with
  | nil =>
    intro t ht cur
    rw [List.nil_append, splitWSAux_allws t ht cur]
    rfl
  | cons c x2 ih =>
    intro t ht cur
    simp only [List.cons_append, splitWSAux, List.append_eq]
    by_cases hc : c.isWhitespace = true
    · rw [if_pos hc, if_pos hc, ih t ht []]
    · rw [if_neg hc, if_neg hc, ih t ht (c :: cur)]

theorem splitWSAux_leading : ∀ (t : Str), (∀ c ∈ t, c.isWhitespace = true) →
    ∀ x, splitWSAux [] (t ++ x) = splitWSAux [] x := by
  intro t
  induction t with
  | nil => intro _ x; rfl
  | cons c t2 ih =>
    intro ht x
    have hc : c.isWhitespace = true := ht c (List.mem_cons_self _ _)
    have ht2 : ∀ d ∈ t2, d.isWhitespace = true :=
      fun d hd => ht d (List.mem_cons_of_mem _ hd)
    simp only [List.cons_append, splitWSAux, hc, if_true, List.append_eq]
    rw [ih ht2 x]

theorem wordsOf_stripWS (s : Str) : wordsOf (stripWS s) = wordsOf s := by
  have hs : s = (s.reverse.dropWhile Char.isWhitespace).reverse ++
      (s.reverse.takeWhile Char.isWhitespace).reverse := by
    rw [← List.reverse_append, List.takeWhile_append_dropWhile, List.reverse_reverse]
  have hws : ∀ c ∈ (s.reverse.takeWhile Char.isWhitespace).reverse,
      c.isWhitespace = true := by
    intro c hc
    rw [List.mem_reverse] at hc
    exact List.mem_takeWhile_imp hc
  have h2 : wordsOf s = wordsOf ((s.reverse.dropWhile Char.isWhitespace).reverse) := by
    conv_lhs => rw [hs]
    exact splitWSAux_trailing _ _ hws []
  have h3 : wordsOf (stripWS s) =
      wordsOf ((s.reverse.dropWhile Char.isWhitespace).reverse) := by
    show wordsOf (((s.reverse.dropWhile Char.isWhitespace).reverse).dropWhile
      Char.isWhitespace) = _
    conv_rhs => rw [show (s.reverse.dropWhile Char.isWhitespace).reverse =
      ((s.reverse.dropWhile Char.isWhitespace).reverse).takeWhile Char.isWhitespace ++
      ((s.reverse.dropWhile Char.isWhitespace).reverse).dropWhile Char.isWhitespace from
      (List.takeWhile_append_dropWhile _ _).symm]
    exact (splitWSAux_leading _ (fun c hc => List.mem_takeWhile_imp hc) _).symm
  rw [h3, h2]

theorem splitWSAux_elems : ∀ (s cur : Str), (∀ c ∈ cur, c.isWhitespace = false) →
    ∀ w ∈ splitWSAux cur s, w ≠ [] ∧ ∀ c ∈ w, c.isWhitespace = false := by
  intro s
  induction s with
  | nil =>
    intro cur hcur w hw
    simp only [splitWSAux] at hw
    by_cases hc : cur = []
    · rw [if_pos hc] at hw
      exact absurd hw (List.not_mem_nil w)
    · rw [if_neg hc] at hw
      have hw2 : w = cur.reverse := by simpa using hw
      subst hw2
      exact ⟨by simpa using hc, fun c hcw => hcur c (List.mem_reverse.mp hcw)⟩
  | cons c s2 ih =>
    intro cur hcur w hw
    simp only [splitWSAux] at hw
    by_cases hc : c.isWhitespace = true
    · rw [if_pos hc] at hw
      by_cases hcur0 : cur = []
      · rw [if_pos hcur0] at hw
        exact ih [] (by simp) w hw
      · rw [if_neg hcur0] at hw
        rcases List.mem_cons.mp hw with rfl | hw2
        · exact ⟨by simpa using hcur0,
            fun d hd => hcur d (List.mem_reverse.mp hd)⟩
        · exact ih [] (by simp) w hw2
    · rw [if_neg hc] at hw
      refine ih (c :: cur) ?_ w hw
      intro d hd
      rcases List.mem_cons.mp hd with rfl | hd2
      · exact Bool.eq_false_iff.mpr hc
      · exact hcur d hd2

theorem wordsOf_nonws (w : Str) (hne : w ≠ [])
    (hnw : ∀ c ∈ w, c.isWhitespace = false) : wordsOf w = [w] := by
  unfold wordsOf
  conv_lhs => rw [show w = w ++ [] from (List.append_nil w).symm]
  rw [splitWSAux_nonws w hnw [] []]
  simp only [splitWSAux, List.append_nil]
  rw [if_neg (by simpa using hne)]
  simp

theorem wordsOf_joinSp_length : ∀ (ws : List Str) (d : Str),
    (∀ w ∈ ws, w ≠ [] ∧ ∀ c ∈ w, c.isWhitespace = false) →
    d ≠ [] → (∀ c ∈ d, c.isWhitespace = false) →
    (wordsOf (joinSp ws ++ d)).length = max 1 ws.length := by
  intro ws
  induction ws with
  | nil =>
    intro d _ hd1 hd2
    rw [show joinSp [] ++ d = d from by simp [joinSp], wordsOf_nonws d hd1 hd2]
    simp
  | cons w ws2 ih =>
    intro d hws hd1 hd2
    cases ws2 with
    | nil =>
      have hw := hws w (List.mem_cons_self _ _)
      have hchars : ∀ c ∈ w ++ d, c.isWhitespace = false := by
        intro c hc
        rcases List.mem_append.mp hc with h | h
        · exact hw.2 c h
        · exact hd2 c h
      rw [show joinSp [w] = w from rfl,
        wordsOf_nonws (w ++ d) (by simp [hw.1]) hchars]
      simp
    | cons w2 ws3 =>
      have hw := hws w (List.mem_cons_self _ _)
      have hrest : ∀ x ∈ w2 :: ws3, x ≠ [] ∧ ∀ c ∈ x, c.isWhitespace = false :=
        fun x hx => hws x (List.mem_cons_of_mem _ hx)
      show (wordsOf ((w ++ ' ' :: joinSp (w2 :: ws3)) ++ d)).length = _
      rw [List.append_assoc, List.cons_append]
      unfold wordsOf
      rw [splitWSAux_nonws w hw.2 [] _]
      simp only [List.append_nil, splitWSAux]
      rw [if_pos (by decide : (' ' : Char).isWhitespace = true),
        if_neg (by simpa using hw.1)]
      have ihr := ih d hrest hd1 hd2
      unfold wordsOf at ihr
      simp only [List.length_cons, ihr]
      simp [Nat.max_eq_right]

/-- C9 (amended): `extract_quote` returns the FIRST sentence (in split
order — not the shortest) whose word count lies in `[5, maxWords]` when
one exists, stripped of surrounding whitespace; otherwise the first
`maxWords` words of the whitespace-collapsed text with an ellipsis marker
appended to the last word; for `maxWords ≥ 1` the returned quote is always
bounded by `maxWords` words. -/
theorem extract_quote_spec (text : Str) (mw : ℕ) (hmw : 1 ≤ mw) :
    ((sentencesOf (collapseWS text)).find? (quoteOk mw) = none →
      extractQuote text mw =
        joinSp ((wordsOf (collapseWS text)).take mw) ++ "...".data) ∧
    (∀ s, (sentencesOf (collapseWS text)).find? (quoteOk mw) = some s →
      extractQuote text mw = stripWS s ∧
      5 ≤ (wordsOf s).length ∧ (wordsOf s).length ≤ mw) ∧
    (wordsOf (extractQuote text mw)).length ≤ mw := by
  refine ⟨?_, ?_, ?_⟩
  · intro hf
    unfold extractQuote
    dsimp only
    rw [hf]
  · intro s hf
    have hp := List.find?_some hf
    simp only [quoteOk, Bool.and_eq_true, decide_eq_true_eq] at hp
    refine ⟨?_, hp.1, hp.2⟩
    unfold extractQuote
    dsimp only
    rw [hf]
  · cases hf : (sentencesOf (collapseWS text)).find? (quoteOk mw) with
    | some s =>
      have hp := List.find?_some hf
      simp only [quoteOk, Bool.and_eq_true, decide_eq_true_eq] at hp
      have he : extractQuote text mw = stripWS s := by
        unfold extractQuote
        dsimp only
        rw [hf]
      rw [he, wordsOf_stripWS]
      exact hp.2
    | none =>
      have he : extractQuote text mw =
          joinSp ((wordsOf (collapseWS text)).take mw) ++ "...".data := by
        unfold extractQuote
        dsimp only
        rw [hf]
      rw [he]
      cases htk : (wordsOf (collapseWS text)).take mw with
      | nil =>
        have h1 : (wordsOf (joinSp [] ++ "...".data)).length = 1 := by decide
        rw [h1]
        exact hmw
      | cons w ws2 =>
        have hall : ∀ x ∈ w :: ws2, x ≠ [] ∧ ∀ c ∈ x, c.isWhitespace = false := by
          intro x hx
          have hx2 : x ∈ wordsOf (collapseWS text) :=
            List.mem_of_mem_take (by rw [htk]; exact hx)
          exact splitWSAux_elems _ [] (by simp) x hx2
        have hlen := wordsOf_joinSp_length (w :: ws2) "...".data hall
          (by decide) (by decide)
        rw [hlen]
        have hlk : (w :: ws2).length ≤ mw := by
          rw [← htk]
          exact List.length_take_le _ _
        exact max_le hmw hlk

/-- Witness for C9 (amended) at the specification's parameters
(maxWords = 25): the returned quote is bounded by 25 words. -/
theorem extract_quote_spec_witness :
    (1:ℕ) ≤ 25 ∧ (wordsOf (extractQuote exBlob 25)).length ≤ 25 :=
  ⟨by norm_num, (extract_quote_spec exBlob 25 (by norm_num)).2.2⟩

/-- Counterexample to C9 as stated: on a text whose first sentence has 7
words and whose second sentence has 5, `extract_quote` returns the first
(7-word) sentence, not the shortest qualifying one (5 words). -/
theorem extract_quote_counterexample :
    extractQuote exBlob 25 = "one two three four five six seven".data ∧
    (wordsOf "one two three four five six seven".data).length = 7 ∧
    "one two three four five.".data ∈ sentencesOf (collapseWS exBlob) ∧
    (wordsOf "one two three four five.".data).length = 5 := by
  refine ⟨?_, ?_, ?_, ?_⟩ <;> decide
